import Mathlib

/-!
Verification of the LiveVisionKit spatial container and video-stabilisation
filter against their natural-language specification.

The development shallowly embeds the code of
`src/LiveVisionKit/Structures/SpatialMap.tpp` (the `SpatialMap<T>` container
and the `VSFilter` stabilisation filter found in the same source file).

Modelling conventions:
- `cv::Size` and `cv::Rect` components are C++ `int`, modelled as `Int`.
- `spatial_key` is `cv::Point_<size_t>`, modelled with `Nat` components.
- `float` and `double` values are modelled as exact rationals.
- The link array `m_Map` is a `std::vector<size_t>` whose `m_EmptySymbol`
  sentinel marks an empty cell; it is modelled as `List (Option Nat)` with
  `none` for the sentinel.
- `LVK_ASSERT` preconditions become hypotheses of the theorems (behaviour
  outside the asserted preconditions is undefined in the source).
-/

namespace LVK

structure CvSize where
  w : Int
  h : Int
deriving DecidableEq, Repr

structure CvRect where
  x : Int
  y : Int
  w : Int
  h : Int
deriving DecidableEq, Repr

structure SizeF where
  w : ℚ
  h : ℚ
deriving DecidableEq, Repr

structure SKey where
  x : Nat
  y : Nat
deriving DecidableEq, Repr

structure PointF where
  x : ℚ
  y : ℚ
deriving DecidableEq, Repr

/-- The C cast of a rational to an integer type: truncation toward zero. -/
def truncQ (q : ℚ) : Int := if 0 ≤ q then ⌊q⌋ else ⌈q⌉

/-- `index_2d` from Math.hpp (declared outside src): the standard row-major
dense 2D index used by the one-link-per-cell array. -/
def index_2d (x y w : Nat) : Nat := x + y * w

/-- `between` from Math.hpp (declared outside src): inclusive range test,
as required by the exclusive-bottom-right note in `within_bounds`. -/
def between (x lo hi : Int) : Bool := (lo ≤ x) && (x ≤ hi)

/-- State of `SpatialMap<T>`: the fields `m_MapResolution`, `m_InputRegion`,
`m_KeySize`, `m_Map` (link array) and `m_Data` (dense data array). -/
structure SpatialMap (T : Type) where
  mapResolution : CvSize
  inputRegion : CvRect
  keySize : SizeF
  map : List (Option Nat)
  data : List (SKey × T)
deriving DecidableEq, Repr

/-- `SpatialMap<T>::resolve_spatial_key`. -/
def resolve_spatial_key (key : SKey) (resolution : CvSize) : Nat :=
  index_2d key.x key.y resolution.w.toNat

/-- `SpatialMap<T>::is_key_valid` for a given resolution: the source compares
the size_t key components against the int resolution. -/
def keyValidFor (resolution : CvSize) (key : SKey) : Bool :=
  ((key.x : Int) < resolution.w) && ((key.y : Int) < resolution.h)

/-- `SpatialMap<T>::simplify_key` on a floating-point point (used by `key_of`):
component-wise division by the key size, then a size_t cast. The cast of a
negative value is undefined behaviour in the source; the callers named in the
claims only reach it with nonnegative components. -/
def simplify_keyQ (p : PointF) (key_size : SizeF) : SKey :=
  ⟨(truncQ (p.x / key_size.w)).toNat, (truncQ (p.y / key_size.h)).toNat⟩

/-- `SpatialMap<T>::simplify_key` on a `spatial_key` point (used by
`distribution_quality`): the size_t components are first cast to float. -/
def simplify_keyN (k : SKey) (key_size : SizeF) : SKey :=
  ⟨(truncQ ((k.x : ℚ) / key_size.w)).toNat, (truncQ ((k.y : ℚ) / key_size.h)).toNat⟩

namespace SpatialMap

variable {T : Type}

def is_key_valid (m : SpatialMap T) (key : SKey) : Bool :=
  keyValidFor m.mapResolution key

/-- `SpatialMap<T>::fetch_data_link`: the link-array cell of a key
(`none` models the `m_EmptySymbol` sentinel). -/
def fetch_data_link (m : SpatialMap T) (key : SKey) : Option Nat :=
  (m.map.get? (resolve_spatial_key key m.mapResolution)).join

/-- `SpatialMap<T>::contains`. -/
def contains (m : SpatialMap T) (key : SKey) : Bool :=
  (m.fetch_data_link key).isSome

def size (m : SpatialMap T) : Nat := m.data.length

def capacity (m : SpatialMap T) : Nat := m.map.length

def is_empty (m : SpatialMap T) : Bool := m.data.isEmpty

/-- `SpatialMap<T>::at` (`m_Data[fetch_data_link(key)].second`), made total
with `Option`: `none` when the precondition `contains(key)` fails or the
stored link dangles past the end of the data array. -/
def atKey (m : SpatialMap T) (key : SKey) : Option T :=
  (m.fetch_data_link key).bind (fun dl => (m.data.get? dl).map Prod.snd)

/-- `SpatialMap<T>::place_at`. On an empty cell the new index is recorded and
the entry appended. On an occupied cell the source executes
`m_Data.emplace(m_Data.begin() + data_link, key, item)`, i.e.
`std::vector::emplace` at an iterator, which inserts a new element at index
`data_link` and shifts the following entries right. -/
def place_at (m : SpatialMap T) (key : SKey) (item : T) : SpatialMap T :=
  match m.fetch_data_link key with
  | none =>
      { m with
        map := m.map.set (resolve_spatial_key key m.mapResolution) (some m.data.length),
        data := m.data ++ [(key, item)] }
  | some data_link =>
      { m with data := m.data.insertIdx data_link (key, item) }

/-- `SpatialMap<T>::emplace_at`: same control flow as `place_at` with the
value constructed from the arguments (`T\x7bargs...\x7d`, modelled as the
already-constructed value). -/
def emplace_at (m : SpatialMap T) (key : SKey) (item : T) : SpatialMap T :=
  match m.fetch_data_link key with
  | none =>
      { m with
        map := m.map.set (resolve_spatial_key key m.mapResolution) (some m.data.length),
        data := m.data ++ [(key, item)] }
  | some data_link =>
      { m with data := m.data.insertIdx data_link (key, item) }

/-- `SpatialMap<T>::within_bounds`: the bottom and right edges of the region
are exclusive; the position is cast to `int` (truncation) before the test. -/
def within_bounds (m : SpatialMap T) (p : PointF) : Bool :=
  between (truncQ p.x) m.inputRegion.x (m.inputRegion.x + m.inputRegion.w - 1) &&
  between (truncQ p.y) m.inputRegion.y (m.inputRegion.y + m.inputRegion.h - 1)

/-- `SpatialMap<T>::key_of`: translate to region-local coordinates and
simplify by the key size. -/
def key_of (m : SpatialMap T) (p : PointF) : SKey :=
  simplify_keyQ ⟨p.x - (m.inputRegion.x : ℚ), p.y - (m.inputRegion.y : ℚ)⟩ m.keySize

/-- `SpatialMap<T>::place` (asserts `within_bounds`). -/
def place (m : SpatialMap T) (p : PointF) (item : T) : SpatialMap T :=
  m.place_at (m.key_of p) item

/-- `SpatialMap<T>::try_place`: returns the success flag together with the
resulting state. -/
def try_place (m : SpatialMap T) (p : PointF) (item : T) : Bool × SpatialMap T :=
  if m.within_bounds p then (true, m.place p item) else (false, m)

/-- `SpatialMap<T>::emplace` (asserts `within_bounds`). -/
def emplace (m : SpatialMap T) (p : PointF) (item : T) : SpatialMap T :=
  m.emplace_at (m.key_of p) item

/-- `SpatialMap<T>::try_emplace`. -/
def try_emplace (m : SpatialMap T) (p : PointF) (item : T) : Bool × SpatialMap T :=
  if m.within_bounds p then (true, m.emplace p item) else (false, m)

/-- Swap two positions of a list (no-op when either index is out of range). -/
def listSwap (l : List α) (i j : Nat) : List α :=
  match l.get? i, l.get? j with
  | some a, some b => (l.set i b).set j a
  | _, _ => l

/-- `SpatialMap<T>::remove` (asserts `contains(key)`; modelled as a no-op when
the precondition fails). The source swaps the removed entry with the last
entry of the data array, then repoints a cell link and pops the last entry.
The repointing line reads `fetch_data_link(key)` — the cell of the removed
key itself — so the write is a no-op on that cell and the swapped-in last
entry keeps its old (now out-of-range) link; `clear_data_link(item_data_link)`
then empties the removed cell. -/
def remove (m : SpatialMap T) (key : SKey) : SpatialMap T :=
  match m.fetch_data_link key, m.data.getLast? with
  | some item_data_link, some back =>
      if back.1 ≠ key then
        let data1 := listSwap m.data item_data_link (m.data.length - 1)
        let map1 := m.map.set (resolve_spatial_key key m.mapResolution) (some item_data_link)
        { m with
          data := data1.dropLast,
          map := map1.set (resolve_spatial_key key m.mapResolution) none }
      else
        { m with
          data := m.data.dropLast,
          map := m.map.set (resolve_spatial_key key m.mapResolution) none }
  | _, _ => m

/-- `SpatialMap<T>::try_remove`. -/
def try_remove (m : SpatialMap T) (key : SKey) : Bool × SpatialMap T :=
  if m.contains key then (true, m.remove key) else (false, m)

/-- `SpatialMap<T>::clear`: empties the data array and resets every link to
the empty sentinel. -/
def clear (m : SpatialMap T) : SpatialMap T :=
  { m with data := [], map := List.replicate m.map.length none }

/-- `SpatialMap<T>::rescale(resolution, input_region)` (asserts resolution at
least 1x1 and the input region at least as large as the resolution in each
dimension). When the geometry actually changes, the key size is re-derived,
the link array re-allocated, and every previously stored entry whose key is
still valid is re-inserted at its key. -/
def rescale (m : SpatialMap T) (resolution : CvSize) (input_region : CvRect) :
    SpatialMap T :=
  if resolution = m.mapResolution ∧ input_region = m.inputRegion then m
  else
    let base : SpatialMap T :=
      { mapResolution := resolution,
        inputRegion := input_region,
        keySize :=
          ⟨(input_region.w : ℚ) / (resolution.w : ℚ),
           (input_region.h : ℚ) / (resolution.h : ℚ)⟩,
        map := List.replicate (resolution.w * resolution.h).toNat none,
        data := [] }
    m.data.foldl
      (fun acc e => if keyValidFor resolution e.1 then acc.place_at e.1 e.2 else acc)
      base

/-- The two-argument `SpatialMap<T>` constructor: default-initialised fields
followed by `rescale(resolution, input_region)`. -/
def create (T : Type) (resolution : CvSize) (input_region : CvRect) : SpatialMap T :=
  rescale
    { mapResolution := ⟨0, 0⟩, inputRegion := ⟨0, 0, 0, 0⟩, keySize := ⟨0, 0⟩,
      map := [], data := [] }
    resolution input_region

/-- One step of the sector-bucket loop in `distribution_quality`: increment
the bucket of the given sector index and count the entry as excess when the
bucket passes the ideal per-sector count. -/
def sector_step (ideal : Nat) (s : (Nat → Nat) × Nat) (idx : Nat) : (Nat → Nat) × Nat :=
  let b := s.1 idx + 1
  (Function.update s.1 idx b, if ideal < b then s.2 + 1 else s.2)

/-- `SpatialMap<T>::distribution_quality`. Doubles are modelled as exact
rationals; `static_cast<size_t>(size / 16.0)` is exact division by a power of
two followed by truncation, i.e. natural division by 16. -/
def distribution_quality (m : SpatialMap T) : ℚ :=
  if m.data.isEmpty then 1
  else if m.mapResolution.w ≤ 4 ∨ m.mapResolution.h ≤ 4 then
    (m.data.length : ℚ) / (m.map.length : ℚ)
  else
    let sector_size : SizeF :=
      ⟨(m.mapResolution.w : ℚ) / 4, (m.mapResolution.h : ℚ) / 4⟩
    let ideal := m.data.length / 16
    let excess := (m.data.foldl
      (fun s e =>
        sector_step ideal s (resolve_spatial_key (simplify_keyN e.1 sector_size) ⟨4, 4⟩))
      ((fun _ => 0 : Nat → Nat), (0 : Nat))).2
    1 - (excess : ℚ) / ((m.data.length : ℚ) - (ideal : ℚ))

/-- The data-model invariant of §3 of the spec: the cached geometry fields are
consistent, every non-empty link points to exactly one data slot whose key
resolves back to that cell, and every stored entry has a valid key whose cell
links back to its index. -/
def WF (m : SpatialMap T) : Prop :=
  m.map.length = (m.mapResolution.w * m.mapResolution.h).toNat ∧
  1 ≤ m.mapResolution.w ∧ 1 ≤ m.mapResolution.h ∧
  m.mapResolution.w ≤ m.inputRegion.w ∧ m.mapResolution.h ≤ m.inputRegion.h ∧
  m.keySize.w = (m.inputRegion.w : ℚ) / (m.mapResolution.w : ℚ) ∧
  m.keySize.h = (m.inputRegion.h : ℚ) / (m.mapResolution.h : ℚ) ∧
  (∀ c < m.map.length, ∀ link, m.map.get? c = some link → ∀ dl, link = some dl →
      dl < m.data.length ∧
      ∀ e, m.data.get? dl = some e → resolve_spatial_key e.1 m.mapResolution = c) ∧
  (∀ i < m.data.length, ∀ e, m.data.get? i = some e →
      keyValidFor m.mapResolution e.1 = true ∧ m.fetch_data_link e.1 = some i)

end SpatialMap

/-- Decidability of a guarded quantifier over an `Option` scrutinee. -/
instance decForallEqSome {A : Type} (o : Option A) (Q : A → Prop) [DecidablePred Q] :
    Decidable (∀ a, o = some a → Q a) :=
  match o with
  | none => isTrue (fun _ h => nomatch h)
  | some a =>
      if h : Q a then isTrue (fun b hb => by cases hb; exact h)
      else isFalse (fun hall => h (hall a rfl))

instance (T : Type) (m : SpatialMap T) : Decidable (SpatialMap.WF m) := by
  unfold SpatialMap.WF
  infer_instance

namespace SpatialMap

variable {T : Type}

theorem place_at_geometry (m : SpatialMap T) (k : SKey) (v : T) :
    (m.place_at k v).mapResolution = m.mapResolution ∧
    (m.place_at k v).inputRegion = m.inputRegion ∧
    (m.place_at k v).keySize = m.keySize := by
  unfold place_at
  cases m.fetch_data_link k <;> exact ⟨rfl, rfl, rfl⟩

theorem foldl_place_geometry (l : List (SKey × T)) (p : SKey → Bool) (b : SpatialMap T) :
    (l.foldl (fun acc e => if p e.1 then acc.place_at e.1 e.2 else acc) b).mapResolution
        = b.mapResolution ∧
    (l.foldl (fun acc e => if p e.1 then acc.place_at e.1 e.2 else acc) b).inputRegion
        = b.inputRegion ∧
    (l.foldl (fun acc e => if p e.1 then acc.place_at e.1 e.2 else acc) b).keySize
        = b.keySize := by
  induction l generalizing b with
  | nil => exact ⟨rfl, rfl, rfl⟩
  | cons e l ih =>
      simp only [List.foldl_cons]
      by_cases hp : p e.1 = true
      · rw [if_pos hp]
        refine ⟨?_, ?_, ?_⟩
        · rw [(ih (b.place_at e.1 e.2)).1, (place_at_geometry b e.1 e.2).1]
        · rw [(ih (b.place_at e.1 e.2)).2.1, (place_at_geometry b e.1 e.2).2.1]
        · rw [(ih (b.place_at e.1 e.2)).2.2, (place_at_geometry b e.1 e.2).2.2]
      · rw [if_neg hp]; exact ih b

theorem rescale_geometry (m : SpatialMap T) (res : CvSize) (reg : CvRect) :
    (m.rescale res reg).mapResolution = res ∧ (m.rescale res reg).inputRegion = reg := by
  unfold rescale
  by_cases hg : res = m.mapResolution ∧ reg = m.inputRegion
  · rw [if_pos hg]; exact ⟨hg.1.symm, hg.2.symm⟩
  · rw [if_neg hg]
    refine ⟨?_, ?_⟩
    · rw [(foldl_place_geometry m.data (fun k => keyValidFor res k) _).1]
    · rw [(foldl_place_geometry m.data (fun k => keyValidFor res k) _).2.1]

end SpatialMap

namespace SpatialMap

variable {T : Type}

theorem keyValidFor_iff (res : CvSize) (k : SKey) :
    keyValidFor res k = true ↔ k.x < res.w.toNat ∧ k.y < res.h.toNat := by
  unfold keyValidFor
  simp only [Bool.and_eq_true, decide_eq_true_eq]
  omega

theorem resolve_lt_area (res : CvSize) (k : SKey) (h : keyValidFor res k = true) :
    resolve_spatial_key k res < (res.w * res.h).toNat := by
  rw [keyValidFor_iff] at h
  obtain ⟨hx, hy⟩ := h
  unfold resolve_spatial_key index_2d
  have harea : (res.w * res.h).toNat = res.w.toNat * res.h.toNat := by
    have hw : (0 : Int) ≤ res.w := by omega
    have hh : (0 : Int) ≤ res.h := by omega
    have : res.w * res.h = ((res.w.toNat * res.h.toNat : Nat) : Int) := by
      push_cast
      rw [Int.toNat_of_nonneg hw, Int.toNat_of_nonneg hh]
    rw [this, Int.toNat_natCast]
  rw [harea]
  calc k.x + k.y * res.w.toNat
      < res.w.toNat + k.y * res.w.toNat := by omega
    _ = (k.y + 1) * res.w.toNat := by ring
    _ ≤ res.h.toNat * res.w.toNat := Nat.mul_le_mul_right _ (by omega)
    _ = res.w.toNat * res.h.toNat := Nat.mul_comm _ _

theorem resolve_inj (res : CvSize) (k1 k2 : SKey)
    (h1 : keyValidFor res k1 = true) (h2 : keyValidFor res k2 = true)
    (he : resolve_spatial_key k1 res = resolve_spatial_key k2 res) : k1 = k2 := by
  rw [keyValidFor_iff] at h1 h2
  unfold resolve_spatial_key index_2d at he
  obtain ⟨hx1, hy1⟩ := h1
  obtain ⟨hx2, hy2⟩ := h2
  have hw : 0 < res.w.toNat := by omega
  have hxy : k1.x = k2.x ∧ k1.y = k2.y := by
    constructor
    · have hm := congrArg (fun n => n % res.w.toNat) he
      simpa [Nat.add_mul_mod_self_right, Nat.mod_eq_of_lt hx1, Nat.mod_eq_of_lt hx2] using hm
    · have hd := congrArg (fun n => n / res.w.toNat) he
      simpa [Nat.add_mul_div_right _ _ hw, Nat.div_eq_of_lt hx1, Nat.div_eq_of_lt hx2] using hd
  cases k1; cases k2
  simp only [SKey.mk.injEq]
  exact ⟨hxy.1, hxy.2⟩

theorem fetch_eq_some_iff (m : SpatialMap T) (k : SKey) (dl : Nat) :
    m.fetch_data_link k = some dl ↔
      m.map.get? (resolve_spatial_key k m.mapResolution) = some (some dl) := by
  unfold fetch_data_link
  cases hg : m.map.get? (resolve_spatial_key k m.mapResolution) with
  | none => simp [Option.join]
  | some link => cases link <;> simp [Option.join]

/-- From the invariant: a stored entry is found by `at` via its back link. -/
theorem WF.atKey_of_mem {m : SpatialMap T} (hWF : WF m) {e : SKey × T}
    (hmem : e ∈ m.data) : m.atKey e.1 = some e.2 := by
  obtain ⟨-, -, -, -, -, -, -, -, hdata⟩ := hWF
  obtain ⟨i, hi⟩ := List.mem_iff_get?.1 hmem
  have hilt : i < m.data.length := (List.get?_eq_some.1 hi).1
  obtain ⟨-, hfetch⟩ := hdata i hilt e hi
  unfold atKey
  rw [hfetch]
  show (m.data.get? i).map Prod.snd = some e.2
  rw [hi]
  rfl

/-- From the invariant: the stored keys are pairwise distinct. -/
theorem WF.keys_nodup {m : SpatialMap T} (hWF : WF m) :
    (m.data.map Prod.fst).Nodup := by
  obtain ⟨-, -, -, -, -, -, -, -, hdata⟩ := hWF
  rw [List.nodup_iff_injective_get]
  intro a b hab
  have hlen : (m.data.map Prod.fst).length = m.data.length := List.length_map _ _
  have halt : (a : Nat) < m.data.length := by have := a.isLt; omega
  have hblt : (b : Nat) < m.data.length := by have := b.isLt; omega
  have hga : m.data.get? (a : Nat) = some (m.data.get ⟨a, halt⟩) := by
    rw [List.get?_eq_getElem?, List.getElem?_eq_getElem halt]
    rfl
  have hgb : m.data.get? (b : Nat) = some (m.data.get ⟨b, hblt⟩) := by
    rw [List.get?_eq_getElem?, List.getElem?_eq_getElem hblt]
    rfl
  have hfa := (hdata _ halt _ hga).2
  have hfb := (hdata _ hblt _ hgb).2
  have hkey : (m.data.get ⟨a, halt⟩).1 = (m.data.get ⟨b, hblt⟩).1 := by
    have ha2 : (m.data.map Prod.fst).get a = (m.data.get ⟨a, halt⟩).1 := by
      simp [List.get_eq_getElem, List.getElem_map]
    have hb2 : (m.data.map Prod.fst).get b = (m.data.get ⟨b, hblt⟩).1 := by
      simp [List.get_eq_getElem, List.getElem_map]
    rw [ha2, hb2] at hab
    exact hab
  rw [hkey, hfb] at hfa
  have hv : (b : Nat) = (a : Nat) := by simpa using hfa
  exact (Fin.ext hv).symm

/-- From the invariant: a valid key that is not among the stored keys has an
empty cell link. -/
theorem WF.fetch_none_of_fresh {m : SpatialMap T} (hWF : WF m) {k : SKey}
    (hvalid : keyValidFor m.mapResolution k = true)
    (hfresh : k ∉ m.data.map Prod.fst) : m.fetch_data_link k = none := by
  cases hf : m.fetch_data_link k with
  | none => rfl
  | some dl =>
      exfalso
      obtain ⟨hlen, -, -, -, -, -, -, hlink, hdata⟩ := hWF
      have hget := (fetch_eq_some_iff m k dl).1 hf
      have hclt : resolve_spatial_key k m.mapResolution < m.map.length := by
        rw [hlen]
        exact resolve_lt_area _ _ hvalid
      have hdl := hlink _ hclt _ hget dl rfl
      obtain ⟨hdllt, hres⟩ := hdl
      cases he : m.data.get? dl with
      | none => exact absurd (List.get?_eq_none.1 he) (by omega)
      | some e =>
          have hres2 := hres e he
          have hev := (hdata dl hdllt e he).1
          have : e.1 = k := resolve_inj _ _ _ hev hvalid hres2
          have hmem : e ∈ m.data := List.get?_mem he
          have : k ∈ m.data.map Prod.fst := by
            rw [← this]
            exact List.mem_map_of_mem Prod.fst hmem
          exact hfresh this

/-- Placing at a valid key whose cell is empty appends the entry and keeps
the invariant. -/
theorem place_at_fresh {m : SpatialMap T} (hWF : WF m) {k : SKey} (v : T)
    (hvalid : keyValidFor m.mapResolution k = true)
    (hfetch : m.fetch_data_link k = none) :
    (m.place_at k v).data = m.data ++ [(k, v)] ∧ WF (m.place_at k v) := by
  obtain ⟨hlen, hw1, hh1, hwle, hhle, hksw, hksh, hlink, hdata⟩ := hWF
  have hclt : resolve_spatial_key k m.mapResolution < m.map.length := by
    rw [hlen]
    exact resolve_lt_area _ _ hvalid
  have hplace : m.place_at k v =
      { m with
        map := m.map.set (resolve_spatial_key k m.mapResolution) (some m.data.length),
        data := m.data ++ [(k, v)] } := by
    unfold place_at
    rw [hfetch]
  rw [hplace]
  refine ⟨rfl, ?_, hw1, hh1, hwle, hhle, hksw, hksh, ?_, ?_⟩
  · simpa using hlen
  · intro c0 hc0 link hget dl hdleq
    cases hdleq
    have hc0len : c0 < m.map.length := by simpa using hc0
    by_cases hcc : c0 = resolve_spatial_key k m.mapResolution
    · subst hcc
      rw [List.get?_set_eq_of_lt _ hclt] at hget
      have hdlN : dl = m.data.length := by
        have := Option.some.inj hget
        exact (Option.some.inj this).symm
      subst hdlN
      refine ⟨by simp, ?_⟩
      intro e he
      rw [List.get?_concat_length] at he
      cases Option.some.inj he
      rfl
    · rw [List.get?_set_ne _ _ (fun h => hcc h.symm)] at hget
      obtain ⟨hdllt, hres⟩ := hlink c0 hc0len _ hget dl rfl
      refine ⟨by simp only [List.length_append, List.length_cons, List.length_nil]; omega, ?_⟩
      intro e he
      rw [List.get?_append hdllt] at he
      exact hres e he
  · intro i hi e he
    by_cases hiN : i < m.data.length
    · rw [List.get?_append hiN] at he
      have hold := hdata i hiN e he
      refine ⟨hold.1, ?_⟩
      have hne : resolve_spatial_key e.1 m.mapResolution
          ≠ resolve_spatial_key k m.mapResolution := by
        intro heq
        have h1 := hold.2
        unfold fetch_data_link at h1 hfetch
        rw [heq] at h1
        rw [hfetch] at h1
        cases h1
      show ((m.map.set (resolve_spatial_key k m.mapResolution) (some m.data.length)).get?
          (resolve_spatial_key e.1 m.mapResolution)).join = some i
      rw [List.get?_set_ne _ _ (fun h => hne h.symm)]
      exact hold.2
    · have hiN2 : i = m.data.length := by
        simp only [List.length_append, List.length_cons, List.length_nil] at hi
        omega
      subst hiN2
      rw [List.get?_concat_length] at he
      cases Option.some.inj he
      refine ⟨hvalid, ?_⟩
      show ((m.map.set (resolve_spatial_key k m.mapResolution) (some m.data.length)).get?
          (resolve_spatial_key k m.mapResolution)).join = some m.data.length
      rw [List.get?_set_eq_of_lt _ hclt]
      rfl

/-- The freshly rebuilt map of `rescale` (before re-insertion) satisfies the
invariant. -/
theorem WF_base (res : CvSize) (reg : CvRect)
    (h1 : 1 ≤ res.w) (h2 : 1 ≤ res.h) (h3 : res.w ≤ reg.w) (h4 : res.h ≤ reg.h) :
    WF ({ mapResolution := res, inputRegion := reg,
          keySize := ⟨(reg.w : ℚ) / (res.w : ℚ), (reg.h : ℚ) / (res.h : ℚ)⟩,
          map := List.replicate (res.w * res.h).toNat none,
          data := [] } : SpatialMap T) := by
  refine ⟨by simp, h1, h2, h3, h4, rfl, rfl, ?_, ?_⟩
  · intro c hc link hget dl hdleq
    cases hdleq
    exfalso
    rw [List.get?_eq_getElem?, List.getElem?_replicate] at hget
    by_cases hlt : c < (res.w * res.h).toNat
    · rw [if_pos hlt] at hget
      cases hget
    · rw [if_neg hlt] at hget
      cases hget
  · intro i hi e he
    cases he

theorem fold_if_eq_fold_filter (l : List (SKey × T)) (p : SKey → Bool) (b : SpatialMap T) :
    l.foldl (fun acc e => if p e.1 then acc.place_at e.1 e.2 else acc) b
      = (l.filter (fun e => p e.1)).foldl (fun acc e => acc.place_at e.1 e.2) b := by
  induction l generalizing b with
  | nil => rfl
  | cons e l ih =>
      simp only [List.foldl_cons, List.filter_cons]
      by_cases hp : p e.1 = true
      · rw [if_pos hp, if_pos (by simpa using hp), List.foldl_cons]
        exact ih _
      · rw [if_neg hp, if_neg (by simpa using hp)]
        exact ih _

/-- Re-inserting a list of validly and freshly keyed entries by `place_at`
appends them and preserves the invariant. -/
theorem foldl_place_wf (l : List (SKey × T)) : ∀ b : SpatialMap T, WF b →
    (∀ e ∈ l, keyValidFor b.mapResolution e.1 = true) →
    ((b.data ++ l).map Prod.fst).Nodup →
    WF (l.foldl (fun acc e => acc.place_at e.1 e.2) b) ∧
    (l.foldl (fun acc e => acc.place_at e.1 e.2) b).data = b.data ++ l := by
  induction l with
  | nil =>
      intro b hWF _ _
      exact ⟨hWF, by simp⟩
  | cons e l ih =>
      intro b hWF hvalid hnodup
      simp only [List.foldl_cons]
      have hval_e : keyValidFor b.mapResolution e.1 = true := hvalid e (by simp)
      have hfresh : e.1 ∉ b.data.map Prod.fst := by
        rw [List.map_append] at hnodup
        obtain ⟨-, -, hdisj⟩ := List.nodup_append.1 hnodup
        exact fun hmem => hdisj hmem (by simp)
      have hfe : b.fetch_data_link e.1 = none :=
        WF.fetch_none_of_fresh hWF hval_e hfresh
      obtain ⟨hdata_eq, hWF2⟩ := place_at_fresh hWF e.2 hval_e hfe
      have hv2 : ∀ e2 ∈ l, keyValidFor (b.place_at e.1 e.2).mapResolution e2.1 = true := by
        rw [(place_at_geometry b e.1 e.2).1]
        exact fun e2 h => hvalid e2 (by simp [h])
      have hn2 : (((b.place_at e.1 e.2).data ++ l).map Prod.fst).Nodup := by
        rw [hdata_eq]
        simpa [List.append_assoc] using hnodup
      have hrec := ih (b.place_at e.1 e.2) hWF2 hv2 hn2
      refine ⟨hrec.1, ?_⟩
      rw [hrec.2, hdata_eq]
      simp

/-- Characterisation of `rescale` when the geometry actually changes: the
result is well-formed and stores exactly the still-valid entries, in order. -/
theorem rescale_result (m : SpatialMap T) (res : CvSize) (reg : CvRect)
    (h1 : 1 ≤ res.w) (h2 : 1 ≤ res.h) (h3 : res.w ≤ reg.w) (h4 : res.h ≤ reg.h)
    (hguard : ¬(res = m.mapResolution ∧ reg = m.inputRegion))
    (hnodup : (m.data.map Prod.fst).Nodup) :
    WF (m.rescale res reg) ∧
    (m.rescale res reg).data = m.data.filter (fun e => keyValidFor res e.1) := by
  have hre : m.rescale res reg
      = (m.data.filter (fun e : SKey × T => keyValidFor res e.1)).foldl
          (fun acc (e : SKey × T) => acc.place_at e.1 e.2)
          { mapResolution := res, inputRegion := reg,
            keySize := ⟨(reg.w : ℚ) / (res.w : ℚ), (reg.h : ℚ) / (res.h : ℚ)⟩,
            map := List.replicate (res.w * res.h).toNat none, data := [] } := by
    unfold rescale
    rw [if_neg hguard]
    exact fold_if_eq_fold_filter m.data (fun k => keyValidFor res k) _
  rw [hre]
  have hbase := WF_base (T := T) res reg h1 h2 h3 h4
  have hfold := foldl_place_wf (m.data.filter (fun e : SKey × T => keyValidFor res e.1)) _ hbase
    (by
      intro e he
      exact (List.mem_filter.1 he).2)
    (by
      show ((([] : List (SKey × T)) ++ m.data.filter
          (fun e : SKey × T => keyValidFor res e.1)).map Prod.fst).Nodup
      rw [List.nil_append]
      exact hnodup.sublist ((List.filter_sublist m.data).map Prod.fst))
  refine ⟨hfold.1, ?_⟩
  rw [hfold.2]
  rfl

/-- The constructed (two-argument) `SpatialMap` is well-formed and empty. -/
theorem create_spec (T : Type) (res : CvSize) (reg : CvRect)
    (h1 : 1 ≤ res.w) (h2 : 1 ≤ res.h) (h3 : res.w ≤ reg.w) (h4 : res.h ≤ reg.h) :
    WF (create T res reg) ∧ (create T res reg).data = [] := by
  unfold create rescale
  rw [if_neg ?hg]
  case hg =>
    intro hg
    have hw := congrArg CvSize.w hg.1
    simp at hw
    omega
  exact ⟨WF_base res reg h1 h2 h3 h4, rfl⟩

end SpatialMap

/-- C3: under the rescale preconditions (resolution at least 1x1, input
region at least as large as the resolution in each dimension), rescaling a
well-formed map keeps every entry whose key is valid under the new
resolution at that same key with the same stored value, and drops every
entry whose key is now out of range. -/
theorem SpatialMap.rescale_preserves_valid_entries (T : Type) (m : SpatialMap T)
    (res : CvSize) (reg : CvRect) (hWF : SpatialMap.WF m)
    (h1 : 1 ≤ res.w) (h2 : 1 ≤ res.h) (h3 : res.w ≤ reg.w) (h4 : res.h ≤ reg.h) :
    (∀ e ∈ m.data, keyValidFor res e.1 = true →
        (m.rescale res reg).atKey e.1 = some e.2) ∧
    (∀ e ∈ m.data, keyValidFor res e.1 = false →
        ∀ e2 ∈ (m.rescale res reg).data, e2.1 ≠ e.1) := by
  by_cases hguard : res = m.mapResolution ∧ reg = m.inputRegion
  · have hres : m.rescale res reg = m := by
      unfold SpatialMap.rescale
      rw [if_pos hguard]
    rw [hres]
    constructor
    · intro e hmem _
      exact hWF.atKey_of_mem hmem
    · intro e hmem hinvalid e2 hmem2 heq
      obtain ⟨i, hi⟩ := List.mem_iff_get?.1 hmem
      have hilt : i < m.data.length := (List.get?_eq_some.1 hi).1
      have hv := (hWF.2.2.2.2.2.2.2.2 i hilt e hi).1
      rw [← hguard.1] at hv
      rw [hinvalid] at hv
      cases hv
  · have hr := SpatialMap.rescale_result m res reg h1 h2 h3 h4 hguard hWF.keys_nodup
    constructor
    · intro e hmem hval
      refine hr.1.atKey_of_mem ?_
      rw [hr.2]
      exact List.mem_filter.2 ⟨hmem, hval⟩
    · intro e hmem hinvalid e2 hmem2 heq
      rw [hr.2] at hmem2
      have hv2 := (List.mem_filter.1 hmem2).2
      rw [heq, hinvalid] at hv2
      cases hv2

/-- Witness for C3: a well-formed 2x2 map over region (0,0,4,4) holding
(0,0) -> 10 and (1,1) -> 20, rescaled to 1x1 over the same region: the
still-valid key (0,0) keeps its value and the now-invalid key (1,1) is
absent. -/
theorem SpatialMap.rescale_preserves_valid_entries_witness :
    SpatialMap.WF
      (((SpatialMap.create Nat ⟨2, 2⟩ ⟨0, 0, 4, 4⟩).place_at ⟨0, 0⟩ 10).place_at
        ⟨1, 1⟩ 20) ∧
    ((((SpatialMap.create Nat ⟨2, 2⟩ ⟨0, 0, 4, 4⟩).place_at ⟨0, 0⟩ 10).place_at
        ⟨1, 1⟩ 20).rescale ⟨1, 1⟩ ⟨0, 0, 4, 4⟩).atKey ⟨0, 0⟩ = some 10 ∧
    ∀ e2 ∈ ((((SpatialMap.create Nat ⟨2, 2⟩ ⟨0, 0, 4, 4⟩).place_at ⟨0, 0⟩ 10).place_at
        ⟨1, 1⟩ 20).rescale ⟨1, 1⟩ ⟨0, 0, 4, 4⟩).data, e2.1 ≠ (⟨1, 1⟩ : SKey) := by
  have hc := SpatialMap.create_spec Nat ⟨2, 2⟩ ⟨0, 0, 4, 4⟩
    (by decide) (by decide) (by decide) (by decide)
  obtain ⟨hd1, hw1⟩ := SpatialMap.place_at_fresh hc.1 (k := ⟨0, 0⟩) 10
    (by decide) (by decide)
  obtain ⟨hd2, hw2⟩ := SpatialMap.place_at_fresh hw1 (k := ⟨1, 1⟩) 20
    (by decide) (by decide)
  have hmain := SpatialMap.rescale_preserves_valid_entries Nat
    (((SpatialMap.create Nat ⟨2, 2⟩ ⟨0, 0, 4, 4⟩).place_at ⟨0, 0⟩ 10).place_at ⟨1, 1⟩ 20)
    ⟨1, 1⟩ ⟨0, 0, 4, 4⟩ hw2 (by decide) (by decide) (by decide) (by decide)
  refine ⟨hw2, ?_, ?_⟩
  · exact hmain.1 (⟨⟨0, 0⟩, 10⟩ : SKey × Nat) (by decide) (by decide)
  · exact hmain.2 (⟨⟨1, 1⟩, 20⟩ : SKey × Nat) (by decide) (by decide)

theorem lt_truncQ_add_one (q : ℚ) : q < (truncQ q : ℚ) + 1 := by
  unfold truncQ
  by_cases h : 0 ≤ q
  · rw [if_pos h]
    exact_mod_cast Int.lt_floor_add_one q
  · rw [if_neg h]
    have hc := Int.le_ceil q
    push_cast
    linarith

namespace SpatialMap

variable {T : Type}

/-- For a well-formed map, a position inside the bounds whose components are
at least the region corner hashes to a valid key. -/
theorem key_of_valid {m : SpatialMap T} (hWF : WF m) {p : PointF}
    (hwb : m.within_bounds p = true)
    (hpx : (m.inputRegion.x : ℚ) ≤ p.x) (hpy : (m.inputRegion.y : ℚ) ≤ p.y) :
    keyValidFor m.mapResolution (m.key_of p) = true := by
  obtain ⟨-, hw1, hh1, hwle, hhle, hksw, hksh, -, -⟩ := hWF
  unfold within_bounds between at hwb
  simp only [Bool.and_eq_true, decide_eq_true_eq] at hwb
  obtain ⟨⟨hx1, hx2⟩, hy1, hy2⟩ := hwb
  have hrw0 : (0 : ℚ) < (m.inputRegion.w : ℚ) := by
    exact_mod_cast (by omega : (0 : Int) < m.inputRegion.w)
  have hrh0 : (0 : ℚ) < (m.inputRegion.h : ℚ) := by
    exact_mod_cast (by omega : (0 : Int) < m.inputRegion.h)
  have hresw0 : (0 : ℚ) < (m.mapResolution.w : ℚ) := by
    exact_mod_cast (by omega : (0 : Int) < m.mapResolution.w)
  have hresh0 : (0 : ℚ) < (m.mapResolution.h : ℚ) := by
    exact_mod_cast (by omega : (0 : Int) < m.mapResolution.h)
  have hpxlt : p.x < (m.inputRegion.x : ℚ) + (m.inputRegion.w : ℚ) := by
    have h4 : ((truncQ p.x : Int) : ℚ) + 1 ≤ (m.inputRegion.x : ℚ) + (m.inputRegion.w : ℚ) := by
      exact_mod_cast (by omega : truncQ p.x + 1 ≤ m.inputRegion.x + m.inputRegion.w)
    calc p.x < (truncQ p.x : ℚ) + 1 := lt_truncQ_add_one p.x
      _ ≤ _ := h4
  have hpylt : p.y < (m.inputRegion.y : ℚ) + (m.inputRegion.h : ℚ) := by
    have h4 : ((truncQ p.y : Int) : ℚ) + 1 ≤ (m.inputRegion.y : ℚ) + (m.inputRegion.h : ℚ) := by
      exact_mod_cast (by omega : truncQ p.y + 1 ≤ m.inputRegion.y + m.inputRegion.h)
    calc p.y < (truncQ p.y : ℚ) + 1 := lt_truncQ_add_one p.y
      _ ≤ _ := h4
  unfold key_of simplify_keyQ keyValidFor
  simp only [Bool.and_eq_true, decide_eq_true_eq]
  constructor
  · rw [hksw]
    have hlx0 : 0 ≤ p.x - (m.inputRegion.x : ℚ) := by linarith
    have hlxlt : p.x - (m.inputRegion.x : ℚ) < (m.inputRegion.w : ℚ) := by linarith
    rw [div_div_eq_mul_div]
    have hq0 : 0 ≤ (p.x - (m.inputRegion.x : ℚ)) * (m.mapResolution.w : ℚ)
        / (m.inputRegion.w : ℚ) :=
      div_nonneg (mul_nonneg hlx0 hresw0.le) hrw0.le
    have hqlt : (p.x - (m.inputRegion.x : ℚ)) * (m.mapResolution.w : ℚ)
        / (m.inputRegion.w : ℚ) < (m.mapResolution.w : ℚ) := by
      rw [div_lt_iff hrw0]
      calc (p.x - (m.inputRegion.x : ℚ)) * (m.mapResolution.w : ℚ)
          < (m.inputRegion.w : ℚ) * (m.mapResolution.w : ℚ) :=
            mul_lt_mul_of_pos_right hlxlt hresw0
        _ = (m.mapResolution.w : ℚ) * (m.inputRegion.w : ℚ) := mul_comm _ _
    rw [truncQ, if_pos hq0]
    have hfl : ⌊(p.x - (m.inputRegion.x : ℚ)) * (m.mapResolution.w : ℚ)
        / (m.inputRegion.w : ℚ)⌋ < m.mapResolution.w := Int.floor_lt.2 (by exact_mod_cast hqlt)
    have hf0 : 0 ≤ ⌊(p.x - (m.inputRegion.x : ℚ)) * (m.mapResolution.w : ℚ)
        / (m.inputRegion.w : ℚ)⌋ := Int.floor_nonneg.2 hq0
    rw [Int.toNat_of_nonneg hf0]
    exact hfl
  · rw [hksh]
    have hly0 : 0 ≤ p.y - (m.inputRegion.y : ℚ) := by linarith
    have hlylt : p.y - (m.inputRegion.y : ℚ) < (m.inputRegion.h : ℚ) := by linarith
    rw [div_div_eq_mul_div]
    have hq0 : 0 ≤ (p.y - (m.inputRegion.y : ℚ)) * (m.mapResolution.h : ℚ)
        / (m.inputRegion.h : ℚ) :=
      div_nonneg (mul_nonneg hly0 hresh0.le) hrh0.le
    have hqlt : (p.y - (m.inputRegion.y : ℚ)) * (m.mapResolution.h : ℚ)
        / (m.inputRegion.h : ℚ) < (m.mapResolution.h : ℚ) := by
      rw [div_lt_iff hrh0]
      calc (p.y - (m.inputRegion.y : ℚ)) * (m.mapResolution.h : ℚ)
          < (m.inputRegion.h : ℚ) * (m.mapResolution.h : ℚ) :=
            mul_lt_mul_of_pos_right hlylt hresh0
        _ = (m.mapResolution.h : ℚ) * (m.inputRegion.h : ℚ) := mul_comm _ _
    rw [truncQ, if_pos hq0]
    have hfl : ⌊(p.y - (m.inputRegion.y : ℚ)) * (m.mapResolution.h : ℚ)
        / (m.inputRegion.h : ℚ)⌋ < m.mapResolution.h := Int.floor_lt.2 (by exact_mod_cast hqlt)
    have hf0 : 0 ≤ ⌊(p.y - (m.inputRegion.y : ℚ)) * (m.mapResolution.h : ℚ)
        / (m.inputRegion.h : ℚ)⌋ := Int.floor_nonneg.2 hq0
    rw [Int.toNat_of_nonneg hf0]
    exact hfl

theorem emplace_at_eq_place_at (m : SpatialMap T) (k : SKey) (v : T) :
    m.emplace_at k v = m.place_at k v := rfl

/-- Placing at a valid key stores the value at that key: in the empty-cell
branch the new link points at the appended entry, and in the occupied branch
the inserted entry lands exactly at the (unchanged) link index. -/
theorem atKey_place_at {m : SpatialMap T} (hWF : WF m) {k : SKey} (v : T)
    (hvalid : keyValidFor m.mapResolution k = true) :
    (m.place_at k v).atKey k = some v := by
  have hclt : resolve_spatial_key k m.mapResolution < m.map.length := by
    rw [hWF.1]
    exact resolve_lt_area _ _ hvalid
  cases hf : m.fetch_data_link k with
  | none =>
      have hplace : m.place_at k v =
          { m with
            map := m.map.set (resolve_spatial_key k m.mapResolution) (some m.data.length),
            data := m.data ++ [(k, v)] } := by
        unfold place_at
        rw [hf]
      rw [hplace]
      unfold atKey fetch_data_link
      show (((m.map.set (resolve_spatial_key k m.mapResolution) (some m.data.length)).get?
          (resolve_spatial_key k m.mapResolution)).join.bind
            (fun dl => ((m.data ++ [(k, v)]).get? dl).map Prod.snd)) = some v
      rw [List.get?_set_eq_of_lt _ hclt]
      show ((m.data ++ [(k, v)]).get? m.data.length).map Prod.snd = some v
      rw [List.get?_concat_length]
      rfl
  | some dl =>
      have hdllt : dl < m.data.length := by
        have hget := (fetch_eq_some_iff m k dl).1 hf
        exact (hWF.2.2.2.2.2.2.2.1 _ hclt _ hget dl rfl).1
      have hplace : m.place_at k v =
          { m with data := m.data.insertIdx dl (k, v) } := by
        unfold place_at
        rw [hf]
      rw [hplace]
      unfold atKey
      have hf2 : fetch_data_link { m with data := m.data.insertIdx dl (k, v) } k
          = some dl := hf
      rw [hf2]
      have hdl_le : dl ≤ m.data.length := le_of_lt hdllt
      have hlen2 : dl < (m.data.insertIdx dl (k, v)).length := by
        rw [List.length_insertIdx _ _ hdl_le]
        omega
      show ((m.data.insertIdx dl (k, v)).get? dl).map Prod.snd = some v
      rw [List.get?_eq_getElem?, List.getElem?_eq_getElem hlen2,
        List.getElem_insertIdx_self _ _ _ hdl_le]
      rfl

end SpatialMap

/-- C9 (counterexample to the claim as worded): `within_bounds` casts the
position to `int` before the range test, so a fractional position that lies
outside the input region but truncates into it is accepted. Over the region
(0, 0, 4, 4), the position (-1/2, 1) has x-coordinate strictly left of the
region, yet `within_bounds` holds and both `try_place` and `try_emplace`
return true rather than false-with-the-map-unchanged. -/
theorem SpatialMap.try_place_truncation_counterexample :
    (mkRat (-1) 2 : ℚ)
        < ((SpatialMap.create Nat ⟨2, 2⟩ ⟨0, 0, 4, 4⟩).inputRegion.x : ℚ) ∧
    (SpatialMap.create Nat ⟨2, 2⟩ ⟨0, 0, 4, 4⟩).within_bounds ⟨mkRat (-1) 2, 1⟩
        = true ∧
    ((SpatialMap.create Nat ⟨2, 2⟩ ⟨0, 0, 4, 4⟩).try_place ⟨mkRat (-1) 2, 1⟩ 5).1
        = true ∧
    ((SpatialMap.create Nat ⟨2, 2⟩ ⟨0, 0, 4, 4⟩).try_emplace ⟨mkRat (-1) 2, 1⟩ 5).1
        = true ∧
    ¬ (((SpatialMap.create Nat ⟨2, 2⟩ ⟨0, 0, 4, 4⟩).try_place ⟨mkRat (-1) 2, 1⟩ 5).1
          = false ∧
        ((SpatialMap.create Nat ⟨2, 2⟩ ⟨0, 0, 4, 4⟩).try_place ⟨mkRat (-1) 2, 1⟩ 5).2
          = SpatialMap.create Nat ⟨2, 2⟩ ⟨0, 0, 4, 4⟩) := by
  refine ⟨by decide, by decide, by decide, by decide, ?_⟩
  intro hcontra
  have h1 : ((SpatialMap.create Nat ⟨2, 2⟩ ⟨0, 0, 4, 4⟩).try_place
      ⟨mkRat (-1) 2, 1⟩ 5).1 = true := by decide
  rw [hcontra.1] at h1
  cases h1

/-- C9 (amended): `try_place` and `try_emplace` return false and leave the
map state untouched exactly for the positions that the code's bounds test
rejects — those whose int-truncated coordinates fall outside the input
region (this includes the exclusive right and bottom edges, but not
fractional positions that truncate into the region); their success flag
equals that bounds test, and for an accepted position with coordinates at
least the region corner (as required for the size_t cast in `key_of` to be
defined) on a well-formed map they return true and store the value at the
hashed key. -/
theorem SpatialMap.try_place_out_of_bounds (T : Type) (m : SpatialMap T)
    (p : PointF) (v : T) :
    (m.within_bounds p = false →
      m.try_place p v = (false, m) ∧ m.try_emplace p v = (false, m)) ∧
    ((m.try_place p v).1 = m.within_bounds p ∧
      (m.try_emplace p v).1 = m.within_bounds p) ∧
    (m.within_bounds p = true → SpatialMap.WF m →
      (m.inputRegion.x : ℚ) ≤ p.x → (m.inputRegion.y : ℚ) ≤ p.y →
      (m.try_place p v).2.atKey (m.key_of p) = some v ∧
      (m.try_emplace p v).2.atKey (m.key_of p) = some v) := by
  refine ⟨?_, ?_, ?_⟩
  · intro hfb
    unfold try_place try_emplace
    rw [hfb]
    exact ⟨rfl, rfl⟩
  · by_cases hb : m.within_bounds p = true
    · simp [try_place, try_emplace, hb]
    · rw [Bool.not_eq_true] at hb
      simp [try_place, try_emplace, hb]
  · intro hb hWF hpx hpy
    have hkv := key_of_valid hWF hb hpx hpy
    unfold try_place try_emplace
    rw [hb]
    constructor
    · show (m.place p v).atKey (m.key_of p) = some v
      unfold place
      exact atKey_place_at hWF v hkv
    · show (m.emplace p v).atKey (m.key_of p) = some v
      unfold emplace
      rw [emplace_at_eq_place_at]
      exact atKey_place_at hWF v hkv

/-- Witness for C9: on a well-formed 2x2 map over region (0,0,4,4), the
position (4,0) on the exclusive right edge is rejected with the map
unchanged, and the in-bounds position (1,1) is accepted and stored. -/
theorem SpatialMap.try_place_out_of_bounds_witness :
    ((SpatialMap.create Nat ⟨2, 2⟩ ⟨0, 0, 4, 4⟩).try_place ⟨4, 0⟩ 5
        = (false, SpatialMap.create Nat ⟨2, 2⟩ ⟨0, 0, 4, 4⟩)) ∧
    ((SpatialMap.create Nat ⟨2, 2⟩ ⟨0, 0, 4, 4⟩).try_emplace ⟨4, 0⟩ 5
        = (false, SpatialMap.create Nat ⟨2, 2⟩ ⟨0, 0, 4, 4⟩)) ∧
    ((SpatialMap.create Nat ⟨2, 2⟩ ⟨0, 0, 4, 4⟩).try_place ⟨1, 1⟩ 5).2.atKey
        ((SpatialMap.create Nat ⟨2, 2⟩ ⟨0, 0, 4, 4⟩).key_of ⟨1, 1⟩) = some 5 ∧
    ((SpatialMap.create Nat ⟨2, 2⟩ ⟨0, 0, 4, 4⟩).try_emplace ⟨1, 1⟩ 5).2.atKey
        ((SpatialMap.create Nat ⟨2, 2⟩ ⟨0, 0, 4, 4⟩).key_of ⟨1, 1⟩) = some 5 := by
  have hc := SpatialMap.create_spec Nat ⟨2, 2⟩ ⟨0, 0, 4, 4⟩
    (by decide) (by decide) (by decide) (by decide)
  have hout := SpatialMap.try_place_out_of_bounds Nat
    (SpatialMap.create Nat ⟨2, 2⟩ ⟨0, 0, 4, 4⟩) ⟨4, 0⟩ 5
  have hin := SpatialMap.try_place_out_of_bounds Nat
    (SpatialMap.create Nat ⟨2, 2⟩ ⟨0, 0, 4, 4⟩) ⟨1, 1⟩ 5
  obtain ⟨ho1, ho2⟩ := hout.1 (by decide)
  obtain ⟨hi1, hi2⟩ := hin.2.2 (by decide) hc.1 (by decide) (by decide)
  exact ⟨ho1, ho2, hi1, hi2⟩

/-- C8: calling `rescale` with the current resolution and input region takes
the early-out of the change guard and leaves the state (all five fields,
hence key_size, link array, data array, entries and order) unchanged; as a
consequence a repeated `rescale` with the same arguments is the identity, so
`rescale` is idempotent. -/
theorem SpatialMap.rescale_idempotent (T : Type) (m : SpatialMap T) :
    m.rescale m.mapResolution m.inputRegion = m ∧
    ∀ res reg, ((m.rescale res reg).rescale res reg) = m.rescale res reg := by
  constructor
  · unfold rescale
    rw [if_pos ⟨rfl, rfl⟩]
  · intro res reg
    have hgeo := rescale_geometry m res reg
    have hfix : ∀ mm : SpatialMap T, mm.mapResolution = res → mm.inputRegion = reg →
        mm.rescale res reg = mm := by
      intro mm h1 h2
      unfold rescale
      rw [if_pos ⟨h1.symm, h2.symm⟩]
    exact hfix _ hgeo.1 hgeo.2

/-- C10: `clear` empties the data array and resets every cell link to the
empty sentinel, so the size becomes 0, the map reports empty, and no key is
contained any more, while the resolution, input region, key size and
capacity are untouched. -/
theorem SpatialMap.clear_resets_contents_keeps_geometry (T : Type) (m : SpatialMap T) :
    m.clear.size = 0 ∧
    m.clear.is_empty = true ∧
    (∀ k : SKey, m.clear.contains k = false) ∧
    m.clear.mapResolution = m.mapResolution ∧
    m.clear.inputRegion = m.inputRegion ∧
    m.clear.keySize = m.keySize ∧
    m.clear.capacity = m.capacity := by
  refine ⟨rfl, rfl, ?_, rfl, rfl, rfl, ?_⟩
  · intro k
    unfold contains fetch_data_link clear
    simp only [List.get?_eq_getElem?, List.getElem?_replicate]
    by_cases hlt : resolve_spatial_key k m.mapResolution < m.map.length
    · rw [if_pos hlt]; rfl
    · rw [if_neg hlt]; rfl
  · unfold capacity clear
    simp

namespace SpatialMap

variable {T : Type}

/-- Loop invariant of the sector-bucket pass: every bucket is bounded by the
number of processed entries, and a nonzero excess count can only be reached
after at least `excess + ideal` entries. -/
theorem sector_fold_inv (ideal : Nat) (l : List Nat) :
    ∀ (B : Nat → Nat) (e n : Nat),
      (∀ j, B j ≤ n) → (e = 0 ∨ e + ideal ≤ n) →
      (∀ j, (l.foldl (fun s i => sector_step ideal s i) (B, e)).1 j ≤ n + l.length) ∧
      ((l.foldl (fun s i => sector_step ideal s i) (B, e)).2 = 0 ∨
        (l.foldl (fun s i => sector_step ideal s i) (B, e)).2 + ideal ≤ n + l.length) := by
  induction l with
  | nil =>
      intro B e n hB he
      simpa using ⟨hB, he⟩
  | cons i l ih =>
      intro B e n hB he
      simp only [List.foldl_cons]
      have hstep : sector_step ideal (B, e) i =
          (Function.update B i (B i + 1), if ideal < B i + 1 then e + 1 else e) := rfl
      rw [hstep]
      have hB1 : ∀ j, Function.update B i (B i + 1) j ≤ n + 1 := by
        intro j
        rw [Function.update_apply]
        by_cases hj : j = i
        · rw [if_pos hj]
          have := hB i
          omega
        · rw [if_neg hj]
          have := hB j
          omega
      have he1 : (if ideal < B i + 1 then e + 1 else e) = 0 ∨
          (if ideal < B i + 1 then e + 1 else e) + ideal ≤ n + 1 := by
        by_cases hcross : ideal < B i + 1
        · rw [if_pos hcross]
          right
          have hBi := hB i
          rcases he with h0 | hle
          · omega
          · omega
        · rw [if_neg hcross]
          rcases he with h0 | hle
          · exact Or.inl h0
          · exact Or.inr (by omega)
      have hrec := ih (Function.update B i (B i + 1))
        (if ideal < B i + 1 then e + 1 else e) (n + 1) hB1 he1
      constructor
      · intro j
        have := hrec.1 j
        simpa [Nat.add_assoc, Nat.add_comm 1 l.length] using this
      · rcases hrec.2 with h0 | hle
        · exact Or.inl h0
        · right
          have hlc : (i :: l).length = l.length + 1 := rfl
          omega

/-- The excess counted by the sector pass never exceeds the total entry
count minus the ideal per-sector count. -/
theorem excess_le (ideal : Nat) (l : List Nat) (hid : ideal ≤ l.length) :
    (l.foldl (fun s i => sector_step ideal s i)
        ((fun _ => 0 : Nat → Nat), (0 : Nat))).2 ≤ l.length - ideal := by
  have h := sector_fold_inv ideal l (fun _ => 0) 0 0 (fun _ => Nat.le_refl 0) (Or.inl rfl)
  rcases h.2 with h0 | hle
  · omega
  · omega

end SpatialMap

/-- C6: `distribution_quality` returns exactly 1 for an empty map; for a
non-empty map whose resolution exceeds 4x4 in both dimensions the
denominator `size - ideal` is strictly positive and the result lies in
[0, 1]. -/
theorem SpatialMap.distribution_quality_bounds (T : Type) (m : SpatialMap T) :
    (m.is_empty = true → m.distribution_quality = 1) ∧
    (m.is_empty = false → 4 < m.mapResolution.w → 4 < m.mapResolution.h →
      (0 : ℚ) < (m.data.length : ℚ) - ((m.data.length / 16 : Nat) : ℚ) ∧
      0 ≤ m.distribution_quality ∧ m.distribution_quality ≤ 1) := by
  constructor
  · intro he
    unfold distribution_quality
    rw [if_pos (show m.data.isEmpty = true from he)]
  · intro he h4w h4h
    have hlen0 : 0 < m.data.length := by
      cases hd : m.data with
      | nil =>
          unfold is_empty at he
          rw [hd] at he
          cases he
      | cons a l => simp [hd]
    have hideal_lt : m.data.length / 16 < m.data.length :=
      Nat.div_lt_self hlen0 (by omega)
    have hD : (0 : ℚ) < (m.data.length : ℚ) - ((m.data.length / 16 : Nat) : ℚ) := by
      have hcast : ((m.data.length / 16 : Nat) : ℚ) < (m.data.length : ℚ) := by
        exact_mod_cast hideal_lt
      linarith
    have hqeq : m.distribution_quality =
        1 - ((m.data.foldl
            (fun s e => sector_step (m.data.length / 16) s
              (resolve_spatial_key
                (simplify_keyN e.1
                  ⟨(m.mapResolution.w : ℚ) / 4, (m.mapResolution.h : ℚ) / 4⟩)
                ⟨4, 4⟩))
            ((fun _ => 0 : Nat → Nat), (0 : Nat))).2 : ℚ)
          / ((m.data.length : ℚ) - ((m.data.length / 16 : Nat) : ℚ)) := by
      unfold distribution_quality
      rw [if_neg (show ¬ m.data.isEmpty = true by
          rw [show m.data.isEmpty = false from he]
          exact Bool.false_ne_true),
        if_neg (by omega)]
    have hE : (m.data.foldl
        (fun s e => sector_step (m.data.length / 16) s
          (resolve_spatial_key
            (simplify_keyN e.1
              ⟨(m.mapResolution.w : ℚ) / 4, (m.mapResolution.h : ℚ) / 4⟩)
            ⟨4, 4⟩))
        ((fun _ => 0 : Nat → Nat), (0 : Nat))).2 ≤ m.data.length - m.data.length / 16 := by
      rw [← List.foldl_map
        (fun e : SKey × T => resolve_spatial_key
          (simplify_keyN e.1
            ⟨(m.mapResolution.w : ℚ) / 4, (m.mapResolution.h : ℚ) / 4⟩)
          ⟨4, 4⟩)
        (fun s i => sector_step (m.data.length / 16) s i)]
      have := SpatialMap.excess_le (m.data.length / 16)
        (m.data.map (fun e : SKey × T => resolve_spatial_key
          (simplify_keyN e.1
            ⟨(m.mapResolution.w : ℚ) / 4, (m.mapResolution.h : ℚ) / 4⟩)
          ⟨4, 4⟩))
        (by rw [List.length_map]; omega)
      rw [List.length_map] at this
      exact this
    refine ⟨hD, ?_, ?_⟩
    · rw [hqeq]
      have hcastE : ((m.data.foldl
          (fun s e => sector_step (m.data.length / 16) s
            (resolve_spatial_key
              (simplify_keyN e.1
                ⟨(m.mapResolution.w : ℚ) / 4, (m.mapResolution.h : ℚ) / 4⟩)
              ⟨4, 4⟩))
          ((fun _ => 0 : Nat → Nat), (0 : Nat))).2 : ℚ)
          ≤ (m.data.length : ℚ) - ((m.data.length / 16 : Nat) : ℚ) := by
        have h2 : ((m.data.length - m.data.length / 16 : Nat) : ℚ)
            = (m.data.length : ℚ) - ((m.data.length / 16 : Nat) : ℚ) := by
          rw [Nat.cast_sub hideal_lt.le]
        rw [← h2]
        exact_mod_cast hE
      have hdivle : ((m.data.foldl
          (fun s e => sector_step (m.data.length / 16) s
            (resolve_spatial_key
              (simplify_keyN e.1
                ⟨(m.mapResolution.w : ℚ) / 4, (m.mapResolution.h : ℚ) / 4⟩)
              ⟨4, 4⟩))
          ((fun _ => 0 : Nat → Nat), (0 : Nat))).2 : ℚ)
          / ((m.data.length : ℚ) - ((m.data.length / 16 : Nat) : ℚ)) ≤ 1 :=
        (div_le_one hD).2 hcastE
      linarith
    · rw [hqeq]
      have hnn : (0 : ℚ) ≤ ((m.data.foldl
          (fun s e => sector_step (m.data.length / 16) s
            (resolve_spatial_key
              (simplify_keyN e.1
                ⟨(m.mapResolution.w : ℚ) / 4, (m.mapResolution.h : ℚ) / 4⟩)
              ⟨4, 4⟩))
          ((fun _ => 0 : Nat → Nat), (0 : Nat))).2 : ℚ)
          / ((m.data.length : ℚ) - ((m.data.length / 16 : Nat) : ℚ)) :=
        div_nonneg (Nat.cast_nonneg _) hD.le
      linarith

/-- Witness for C6: the empty 5x5 map has quality exactly 1, and a 5x5 map
holding one entry has a quality within [0, 1] with positive denominator. -/
theorem SpatialMap.distribution_quality_bounds_witness :
    (SpatialMap.create Nat ⟨5, 5⟩ ⟨0, 0, 5, 5⟩).distribution_quality = 1 ∧
    ((0 : ℚ) ≤ ((SpatialMap.create Nat ⟨5, 5⟩ ⟨0, 0, 5, 5⟩).place_at
        ⟨0, 0⟩ 1).distribution_quality ∧
      ((SpatialMap.create Nat ⟨5, 5⟩ ⟨0, 0, 5, 5⟩).place_at
        ⟨0, 0⟩ 1).distribution_quality ≤ 1) := by
  have h1 := SpatialMap.distribution_quality_bounds Nat
    (SpatialMap.create Nat ⟨5, 5⟩ ⟨0, 0, 5, 5⟩)
  have h2 := SpatialMap.distribution_quality_bounds Nat
    ((SpatialMap.create Nat ⟨5, 5⟩ ⟨0, 0, 5, 5⟩).place_at ⟨0, 0⟩ 1)
  have h2c := h2.2 (by decide) (by decide) (by decide)
  exact ⟨h1.1 (by decide), h2c.2.1, h2c.2.2⟩

/-- C1 (code-bug evidence): `place_at` on an occupied cell does not replace
the stored value in place. On a 2x1 map holding entries at keys (0,0) and
(1,0), a second `place_at` to key (0,0) grows the size from 2 to 3 (the
source comment and the spec say the value is replaced with no change to
other entries), and afterwards the cell link of key (1,0) resolves to the
shifted copy of the old (0,0) entry, so `at` on key (1,0) reads value 10
instead of its stored value 20. -/
theorem SpatialMap.place_at_occupied_inserts_and_shifts :
    (((SpatialMap.create Nat ⟨2, 1⟩ ⟨0, 0, 2, 1⟩).place_at ⟨0, 0⟩ 10).place_at
        ⟨1, 0⟩ 20).size = 2 ∧
    ((((SpatialMap.create Nat ⟨2, 1⟩ ⟨0, 0, 2, 1⟩).place_at ⟨0, 0⟩ 10).place_at
        ⟨1, 0⟩ 20).place_at ⟨0, 0⟩ 30).size = 3 ∧
    ((((SpatialMap.create Nat ⟨2, 1⟩ ⟨0, 0, 2, 1⟩).place_at ⟨0, 0⟩ 10).place_at
        ⟨1, 0⟩ 20).place_at ⟨0, 0⟩ 30).atKey ⟨1, 0⟩ = some 10 ∧
    ((((SpatialMap.create Nat ⟨2, 1⟩ ⟨0, 0, 2, 1⟩).place_at ⟨0, 0⟩ 10).place_at
        ⟨1, 0⟩ 20).place_at ⟨0, 0⟩ 30).data =
      [(⟨0, 0⟩, 30), (⟨0, 0⟩, 10), (⟨1, 0⟩, 20)] := by
  refine ⟨by decide, by decide, by decide, by decide⟩

/-- C2 (code-bug evidence): after placing entries at keys (0,0) and (1,0) on
a 2x1 map and removing key (0,0), the removed key is gone and the size drops
to 1, but the former-last entry (key (1,0), value 20) keeps its old cell link
1, which now points one past the end of the 1-element data array: `contains`
still reports the key, yet the link dangles and `at` finds no entry, so the
link-array invariant is broken and `at(former_last_key)` does not return the
original value. -/
theorem SpatialMap.remove_swap_leaves_dangling_link :
    ((((SpatialMap.create Nat ⟨2, 1⟩ ⟨0, 0, 2, 1⟩).place_at ⟨0, 0⟩ 10).place_at
        ⟨1, 0⟩ 20).remove ⟨0, 0⟩).contains ⟨1, 0⟩ = true ∧
    ((((SpatialMap.create Nat ⟨2, 1⟩ ⟨0, 0, 2, 1⟩).place_at ⟨0, 0⟩ 10).place_at
        ⟨1, 0⟩ 20).remove ⟨0, 0⟩).size = 1 ∧
    ((((SpatialMap.create Nat ⟨2, 1⟩ ⟨0, 0, 2, 1⟩).place_at ⟨0, 0⟩ 10).place_at
        ⟨1, 0⟩ 20).remove ⟨0, 0⟩).contains ⟨0, 0⟩ = false ∧
    ((((SpatialMap.create Nat ⟨2, 1⟩ ⟨0, 0, 2, 1⟩).place_at ⟨0, 0⟩ 10).place_at
        ⟨1, 0⟩ 20).remove ⟨0, 0⟩).fetch_data_link ⟨1, 0⟩ = some 1 ∧
    ((((SpatialMap.create Nat ⟨2, 1⟩ ⟨0, 0, 2, 1⟩).place_at ⟨0, 0⟩ 10).place_at
        ⟨1, 0⟩ 20).remove ⟨0, 0⟩).atKey ⟨1, 0⟩ = none := by
  refine ⟨by decide, by decide, by decide, by decide, by decide⟩

/-!
### Shallow embedding of the `VSFilter` stabilisation filter

The filter code lives in the same source file; its collaborator classes
(`Transform`, `BoundingBox`, `SlidingBuffer`) and the OpenCV routines it
calls are declared outside src, so they are modelled from the spec where
noted. Doubles are modelled as exact rationals.
-/

/-- Modelled from the spec: the `Transform` value type (declared outside
src; §3: an invertible 2D geometric map with identity, composition,
scalar interpolation `lerp` and linear scaling `*`). Modelled as the affine
map [[a, b, tx], [c, d, ty]] over exact rationals with componentwise
addition, subtraction and scaling, as used by the `FrameVector` arithmetic
of the source. -/
structure Transform where
  a : ℚ
  b : ℚ
  c : ℚ
  d : ℚ
  tx : ℚ
  ty : ℚ
deriving DecidableEq, Repr

def Transform.Identity : Transform := ⟨1, 0, 0, 1, 0, 0⟩

def Transform.add (f g : Transform) : Transform :=
  ⟨f.a + g.a, f.b + g.b, f.c + g.c, f.d + g.d, f.tx + g.tx, f.ty + g.ty⟩

instance : Add Transform := ⟨Transform.add⟩

def Transform.sub (f g : Transform) : Transform :=
  ⟨f.a - g.a, f.b - g.b, f.c - g.c, f.d - g.d, f.tx - g.tx, f.ty - g.ty⟩

instance : Sub Transform := ⟨Transform.sub⟩

/-- `Transform::operator*(double)`: linear scaling. -/
def Transform.scale (f : Transform) (s : ℚ) : Transform :=
  ⟨f.a * s, f.b * s, f.c * s, f.d * s, f.tx * s, f.ty * s⟩

/-- Modelled from the spec: `lerp(from, to, t)` — scalar interpolation from
the first transform toward the second. -/
def lerpT (f g : Transform) (t : ℚ) : Transform := f + (g - f).scale t

/-- Application of the affine map to a point. -/
def Transform.apply (f : Transform) (px py : ℚ) : ℚ × ℚ :=
  (f.a * px + f.b * py + f.tx, f.c * px + f.d * py + f.ty)

/-- A rectangle with rational coordinates (the crop region). -/
structure RectQ where
  x : ℚ
  y : ℚ
  w : ℚ
  h : ℚ
deriving DecidableEq, Repr

/-- Modelled from the spec: `BoundingBox(frame.size(), transform)` together
with `encloses(crop)` (declared outside src) — the axis-aligned bounding box
of the four warped frame corners fully contains the crop rectangle. -/
def frameBoundsEnclose (fw fh : ℚ) (f : Transform) (crop : RectQ) : Prop :=
  min (min (f.apply 0 0).1 (f.apply fw 0).1) (min (f.apply 0 fh).1 (f.apply fw fh).1)
      ≤ crop.x ∧
  min (min (f.apply 0 0).2 (f.apply fw 0).2) (min (f.apply 0 fh).2 (f.apply fw fh).2)
      ≤ crop.y ∧
  crop.x + crop.w ≤
    max (max (f.apply 0 0).1 (f.apply fw 0).1) (max (f.apply 0 fh).1 (f.apply fw fh).1) ∧
  crop.y + crop.h ≤
    max (max (f.apply 0 0).2 (f.apply fw 0).2) (max (f.apply 0 fh).2 (f.apply fw fh).2)

instance (fw fh : ℚ) (f : Transform) (crop : RectQ) :
    Decidable (frameBoundsEnclose fw fh f crop) := by
  unfold frameBoundsEnclose
  infer_instance

namespace VSFilter

/-- The loop of `VSFilter::enclose_crop`: while the `t <= max_t` budget
holds and the current bounding box does not enclose the crop, interpolate
the transform toward identity at the current fraction and advance `t` by
`step = 1/100`. The fuel argument counts the loop iterations the budget can
still admit; at the call site below it is exactly the iteration budget, so
running out of fuel coincides with `t` exceeding `max_t`. -/
def encloseCropGo (transform : Transform) (fw fh : ℚ) (crop : RectQ) :
    Nat → ℚ → Transform → Transform
  | 0, _, reduced => reduced
  | fuel + 1, t, reduced =>
      if t ≤ 1 ∧ ¬ frameBoundsEnclose fw fh reduced crop then
        encloseCropGo transform fw fh crop fuel (t + 1 / 100)
          (lerpT transform Transform.Identity t)
      else reduced

/-- `VSFilter::enclose_crop` (`max_t = 1`, `max_iterations = 100`,
`step = 1/100`, starting at `t = step` from the unreduced transform). -/
def enclose_crop (fw fh : ℚ) (crop : RectQ) (transform : Transform) : Transform :=
  encloseCropGo transform fw fh crop 100 (1 / 100) transform

end VSFilter

/-- Modelled from the spec: `SlidingBuffer` (declared outside src; §3: a
fixed-capacity circular sequence with `advance` pushing the newest element
and evicting the oldest when full, plus `oldest`, `newest`, `centre`,
`full`, `window_size`, `elements`, `clear`). Represented as an oldest-first
list with its capacity. -/
structure SlidingBuffer (α : Type) where
  capacity : Nat
  elems : List α
deriving DecidableEq, Repr

namespace SlidingBuffer

variable {α : Type}

def full (b : SlidingBuffer α) : Bool := b.capacity ≤ b.elems.length

def advance (b : SlidingBuffer α) (a : α) : SlidingBuffer α :=
  if b.capacity ≤ b.elems.length then { b with elems := b.elems.tail ++ [a] }
  else { b with elems := b.elems ++ [a] }

def oldest (b : SlidingBuffer α) : Option α := b.elems.head?

def newest (b : SlidingBuffer α) : Option α := b.elems.getLast?

def centre (b : SlidingBuffer α) : Option α := b.elems.get? (b.elems.length / 2)

def elements (b : SlidingBuffer α) : Nat := b.elems.length

def window_size (b : SlidingBuffer α) : Nat := b.capacity

def clear (b : SlidingBuffer α) : SlidingBuffer α := { b with elems := [] }

/-- Modelled from the spec: `resize` sets the window capacity; every use in
the source is followed by a clear or a full refill, so the stored elements
are dropped. -/
def resize (b : SlidingBuffer α) (n : Nat) : SlidingBuffer α := ⟨n, []⟩

end SlidingBuffer

/-- `VSFilter::FrameVector` (source): a displacement/velocity pair of
transforms. -/
structure FrameVector where
  displacement : Transform
  velocity : Transform
deriving DecidableEq, Repr

/-- `FrameVector::operator+`: componentwise. -/
def FrameVector.add (u v : FrameVector) : FrameVector :=
  ⟨u.displacement + v.displacement, u.velocity + v.velocity⟩

instance : Add FrameVector := ⟨FrameVector.add⟩

/-- `FrameVector::operator*(double)`: componentwise scaling. -/
def FrameVector.scale (u : FrameVector) (s : ℚ) : FrameVector :=
  ⟨u.displacement.scale s, u.velocity.scale s⟩

/-- The identity frame vector used to seed the trajectory. -/
def identityFV : FrameVector := ⟨Transform.Identity, Transform.Identity⟩

def zeroT : Transform := ⟨0, 0, 0, 0, 0, 0⟩

/-- Modelled from the spec: `SlidingBuffer::convolve` with the filter kernel
(declared outside src; §4.3: the smoothed target is the convolution of the
trajectory window with the Gaussian kernel) — the kernel-weighted sum of the
window elements. -/
def convolveFV (traj : SlidingBuffer FrameVector) (filt : SlidingBuffer ℚ) : FrameVector :=
  (List.zip traj.elems filt.elems).foldl
    (fun acc vw => acc + vw.1.scale vw.2) ⟨zeroT, zeroT⟩

/-- Modelled from the spec: `cv::getGaussianKernel(window, window / 6.0)` is
external library code (OpenCV, not part of this repository). The spec fixes
a normalised low-pass kernel of length `window`; its irrational values are
not observable by any claim about the buffers, so a normalised kernel of the
correct length stands in. -/
def gaussianKernel (n : Nat) : List ℚ := List.replicate n (1 / (n : ℚ))

namespace VSFilter

/-- The `VSFilter` state relevant to the tracking/smoothing pipeline: the
configured smoothing radius, the frame delay queue, the trajectory window,
the filter kernel buffer and the crop region computed by `tick`. The frame
type is abstract (OpenCV buffers). -/
structure State (Frame : Type) where
  smoothingRadius : Nat
  frameQueue : SlidingBuffer Frame
  trajectory : SlidingBuffer FrameVector
  filter : SlidingBuffer ℚ
  cropRegion : RectQ

/-- `VSFilter::stabilisation_ready`: both ring buffers are full (the source
asserts that the two fullness flags always agree). -/
def stabilisation_ready {F : Type} (s : State F) : Bool :=
  s.trajectory.full && s.frameQueue.full

/-- The seeding loop of `reset_buffers`: keep advancing with the newest
value held (`newest() + Transform::Identity()`) while the trajectory holds
fewer than `smoothing_radius - 1` elements. The fuel bounds the iterations;
at the call site it is the smoothing radius, which exceeds the `R - 2`
iterations the loop performs. -/
def seedLoop (target : Nat) : Nat → SlidingBuffer FrameVector → SlidingBuffer FrameVector
  | 0, b => b
  | fuel + 1, b =>
      if b.elems.length < target then
        seedLoop target fuel (b.advance ((b.newest.getD identityFV) + identityFV))
      else b

/-- `VSFilter::reset_buffers` (asserts that the trajectory window is larger
than the frame queue window; the OBS frame-release side effects are not part
of the buffer state): clear both buffers, seed the trajectory with an
identity frame vector and hold the last value until it has
`smoothing_radius - 1` elements. -/
def reset_buffers {F : Type} (s : State F) : State F :=
  { s with
    frameQueue := s.frameQueue.clear,
    trajectory :=
      seedLoop (s.smoothingRadius - 1) s.smoothingRadius
        (s.trajectory.clear.advance identityFV) }

/-- `VSFilter::prepare_buffers` (asserts an even radius within the
configured bounds): queue size `radius + 2`, window size `2 * radius + 1`,
regenerated kernel, then a resynchronising reset. -/
def prepare_buffers {F : Type} (s : State F) (radius : Nat) : State F :=
  reset_buffers
    { s with
      smoothingRadius := radius,
      frameQueue := s.frameQueue.resize (radius + 2),
      trajectory := s.trajectory.resize (2 * radius + 1),
      filter := (gaussianKernel (2 * radius + 1)).foldl SlidingBuffer.advance
        ((s.filter.resize (2 * radius + 1)).clear) }

/-- The buffer-advancing prefix of `VSFilter::process`: push the new frame
onto the queue and the tracked motion onto the trajectory
(`previous().displacement + velocity` reads the newest element before the
advance). -/
def advanceState {F : Type} (track : F → Transform) (s : State F) (frame : F) : State F :=
  { s with
    frameQueue := s.frameQueue.advance frame,
    trajectory := s.trajectory.advance
      ⟨((s.trajectory.newest).getD identityFV).displacement + track frame, track frame⟩ }

/-- The corrective warp computed by the ready branch of `process`:
`correction = convolve(filter).displacement - centre displacement`,
`smooth_warp = centre velocity + correction`, then the crop-enclosure
reduction on the output frame. -/
def correctiveWarp {F : Type} (st : State F) (of : F) (frameSize : F → ℚ × ℚ) : Transform :=
  enclose_crop (frameSize of).1 (frameSize of).2 st.cropRegion
    ((st.trajectory.centre.getD identityFV).velocity +
      ((convolveFV st.trajectory st.filter).displacement -
        (st.trajectory.centre.getD identityFV).displacement))

/-- `VSFilter::process`. The frame type and the OpenCV frame operations
(frame download, `cv::warpAffine`) and `FrameTracker::track` are external,
so they are parameters. Before the buffers are full the call returns `none`
(the `nullptr` no-output sentinel); once full it returns the oldest queued
frame warped by the crop-constrained smoothed correction. -/
def process {F : Type} (track : F → Transform) (applyWarp : F → Transform → F)
    (frameSize : F → ℚ × ℚ) (s : State F) (frame : F) : State F × Option F :=
  if stabilisation_ready (advanceState track s frame) then
    match (advanceState track s frame).frameQueue.oldest with
    | some oldestFrame =>
        ((advanceState track s frame),
          some (applyWarp oldestFrame
            (correctiveWarp (advanceState track s frame) oldestFrame frameSize)))
    | none => (advanceState track s frame, none)
  else (advanceState track s frame, none)

/-- Iterated `process`, keeping only the state (the host feeds frames one at
a time). -/
def processRun {F : Type} (track : F → Transform) (applyWarp : F → Transform → F)
    (frameSize : F → ℚ × ℚ) (s : State F) (frames : List F) : State F :=
  frames.foldl (fun st f => (process track applyWarp frameSize st f).1) s

end VSFilter

theorem Transform.add_def (f g : Transform) : f + g =
    ⟨f.a + g.a, f.b + g.b, f.c + g.c, f.d + g.d, f.tx + g.tx, f.ty + g.ty⟩ := rfl

theorem Transform.sub_def (f g : Transform) : f - g =
    ⟨f.a - g.a, f.b - g.b, f.c - g.c, f.d - g.d, f.tx - g.tx, f.ty - g.ty⟩ := rfl

theorem lerpT_zero (f g : Transform) : lerpT f g 0 = f := by
  cases f
  cases g
  simp only [lerpT, Transform.scale, Transform.add_def, Transform.sub_def,
    Transform.mk.injEq]
  refine ⟨?_, ?_, ?_, ?_, ?_, ?_⟩ <;> ring

theorem lerpT_one (f g : Transform) : lerpT f g 1 = g := by
  cases f
  cases g
  simp only [lerpT, Transform.scale, Transform.add_def, Transform.sub_def,
    Transform.mk.injEq]
  refine ⟨?_, ?_, ?_, ?_, ?_, ?_⟩ <;> ring

namespace VSFilter

theorem encloseCropGo_zero (f : Transform) (fw fh : ℚ) (crop : RectQ) (t : ℚ)
    (reduced : Transform) : encloseCropGo f fw fh crop 0 t reduced = reduced := rfl

theorem encloseCropGo_succ (f : Transform) (fw fh : ℚ) (crop : RectQ) (fuel : Nat)
    (t : ℚ) (reduced : Transform) :
    encloseCropGo f fw fh crop (fuel + 1) t reduced =
      if t ≤ 1 ∧ ¬ frameBoundsEnclose fw fh reduced crop then
        encloseCropGo f fw fh crop fuel (t + 1 / 100)
          (lerpT f Transform.Identity t)
      else reduced := rfl

/-- When no reduced transform up to fraction 99/100 encloses the crop, the
search walks through every step and ends at the full interpolation toward
identity, for any fuel at least matching the remaining step budget. -/
theorem encloseCropGo_exhausts (f : Transform) (fw fh : ℚ) (crop : RectQ)
    (hnever : ∀ j : Nat, j < 100 →
      ¬ frameBoundsEnclose fw fh (lerpT f Transform.Identity ((j : ℚ) / 100)) crop) :
    ∀ fuel k : Nat, 1 ≤ k → k ≤ 101 → 101 ≤ k + fuel →
      encloseCropGo f fw fh crop fuel ((k : ℚ) / 100)
          (lerpT f Transform.Identity (((k - 1 : Nat) : ℚ) / 100))
        = lerpT f Transform.Identity 1 := by
  intro fuel
  induction fuel with
  | zero =>
      intro k hk1 hk101 hkfuel
      have hk : k = 101 := by omega
      subst hk
      rw [encloseCropGo_zero]
      norm_num
  | succ fuel ih =>
      intro k hk1 hk101 hkfuel
      by_cases hk100 : k ≤ 100
      · rw [encloseCropGo_succ]
        rw [if_pos ?hcond]
        case hcond =>
          constructor
          · rw [div_le_one (by norm_num)]
            exact_mod_cast hk100
          · have hj := hnever (k - 1) (by omega)
            exact hj
        have harg : (k : ℚ) / 100 + 1 / 100 = ((k + 1 : Nat) : ℚ) / 100 := by
          push_cast
          ring
        have harg2 : lerpT f Transform.Identity ((k : ℚ) / 100)
            = lerpT f Transform.Identity ((((k + 1) - 1 : Nat) : ℚ) / 100) := by
          norm_num
        rw [harg, harg2]
        exact ih (k + 1) (by omega) (by omega) (by omega)
      · have hk : k = 101 := by omega
        subst hk
        rw [encloseCropGo_succ]
        rw [if_neg ?hneg]
        case hneg =>
          intro hcond
          have := hcond.1
          rw [div_le_one (by norm_num)] at this
          have : (101 : ℚ) ≤ 100 := by exact_mod_cast this
          linarith
        norm_num

end VSFilter

/-- C5: if no interpolation fraction up to 99/100 yields a bounding box
enclosing the crop, `enclose_crop` runs through its whole 100-iteration
budget and returns the interpolation at fraction 1 toward identity, i.e.
the identity transform (any extra fuel beyond the budget changes nothing,
since the `t <= max_t` guard stops the loop); if the transform already
encloses the crop, the first check succeeds and the original transform is
returned unreduced. -/
theorem VSFilter.enclose_crop_terminates_at_identity (fw fh : ℚ) (crop : RectQ)
    (f : Transform) :
    ((∀ j : Nat, j < 100 →
        ¬ frameBoundsEnclose fw fh (lerpT f Transform.Identity ((j : ℚ) / 100)) crop) →
      VSFilter.enclose_crop fw fh crop f = Transform.Identity ∧
      ∀ extra : Nat,
        VSFilter.encloseCropGo f fw fh crop (100 + extra) (1 / 100) f
          = Transform.Identity) ∧
    (frameBoundsEnclose fw fh f crop → VSFilter.enclose_crop fw fh crop f = f) := by
  constructor
  · intro hnever
    have hmain : ∀ fuel : Nat, 100 ≤ fuel →
        VSFilter.encloseCropGo f fw fh crop fuel (1 / 100) f = Transform.Identity := by
      intro fuel hf
      have hinst := VSFilter.encloseCropGo_exhausts f fw fh crop hnever fuel 1
        (by omega) (by omega) (by omega)
      have harg0 : lerpT f Transform.Identity (((1 - 1 : Nat) : ℚ) / 100) = f := by
        norm_num [lerpT_zero]
      have harg1 : ((1 : Nat) : ℚ) / 100 = (1 : ℚ) / 100 := by norm_num
      rw [harg0, harg1, lerpT_one] at hinst
      exact hinst
    exact ⟨hmain 100 (Nat.le_refl 100), fun extra => hmain (100 + extra) (by omega)⟩
  · intro henc
    show VSFilter.encloseCropGo f fw fh crop (99 + 1) (1 / 100) f = f
    rw [VSFilter.encloseCropGo_succ]
    rw [if_neg (fun h => h.2 henc)]

namespace SlidingBuffer

variable {α : Type}

theorem advance_capacity (b : SlidingBuffer α) (a : α) :
    (b.advance a).capacity = b.capacity := by
  unfold advance
  split <;> rfl

theorem advance_length (b : SlidingBuffer α) (a : α)
    (hle : b.elems.length ≤ b.capacity) (hc : 0 < b.capacity) :
    (b.advance a).elems.length = min b.capacity (b.elems.length + 1) := by
  unfold advance
  by_cases hfull : b.capacity ≤ b.elems.length
  · rw [if_pos hfull]
    simp only [List.length_append, List.length_tail, List.length_cons, List.length_nil]
    omega
  · rw [if_neg hfull]
    simp only [List.length_append, List.length_cons, List.length_nil]
    omega

theorem full_iff (b : SlidingBuffer α) :
    b.full = true ↔ b.capacity ≤ b.elems.length := by
  unfold full
  simp

end SlidingBuffer

namespace VSFilter

variable {F : Type}

theorem seedLoop_succ (target fuel : Nat) (b : SlidingBuffer FrameVector) :
    seedLoop target (fuel + 1) b =
      if b.elems.length < target then
        seedLoop target fuel (b.advance ((b.newest.getD identityFV) + identityFV))
      else b := rfl

/-- The seeding loop ends with exactly `target` elements whenever the target
fits the capacity and the fuel covers the missing count. -/
theorem seedLoop_spec (target : Nat) :
    ∀ (fuel : Nat) (b : SlidingBuffer FrameVector),
      b.elems.length ≤ target → target ≤ b.capacity →
      target ≤ b.elems.length + fuel →
      (seedLoop target fuel b).capacity = b.capacity ∧
      (seedLoop target fuel b).elems.length = target := by
  intro fuel
  induction fuel with
  | zero =>
      intro b h1 h2 h3
      refine ⟨rfl, ?_⟩
      show b.elems.length = target
      omega
  | succ fuel ih =>
      intro b h1 h2 h3
      rw [seedLoop_succ]
      by_cases hlt : b.elems.length < target
      · rw [if_pos hlt]
        have hc : 0 < b.capacity := by omega
        have hadv := b.advance_length ((b.newest.getD identityFV) + identityFV)
          (by omega) hc
        have hlen2 : (b.advance ((b.newest.getD identityFV) + identityFV)).elems.length
            = b.elems.length + 1 := by omega
        have hcap2 := b.advance_capacity ((b.newest.getD identityFV) + identityFV)
        have hrec := ih (b.advance ((b.newest.getD identityFV) + identityFV))
          (by omega) (by omega) (by omega)
        exact ⟨by rw [hrec.1, hcap2], hrec.2⟩
      · rw [if_neg hlt]
        exact ⟨rfl, by omega⟩

/-- Geometry of the buffers right after `prepare_buffers`: queue of capacity
`R + 2` cleared, trajectory of capacity `2R + 1` seeded with `R - 1`
elements. -/
theorem prepare_buffers_spec (s0 : State F) (R : Nat) (hR2 : 2 ≤ R) :
    (prepare_buffers s0 R).smoothingRadius = R ∧
    (prepare_buffers s0 R).frameQueue.capacity = R + 2 ∧
    (prepare_buffers s0 R).frameQueue.elems.length = 0 ∧
    (prepare_buffers s0 R).trajectory.capacity = 2 * R + 1 ∧
    (prepare_buffers s0 R).trajectory.elems.length = R - 1 := by
  have hstart : (s0.trajectory.resize (2 * R + 1)).clear.advance identityFV
      = (⟨2 * R + 1, [identityFV]⟩ : SlidingBuffer FrameVector) := by
    show SlidingBuffer.advance ⟨2 * R + 1, ([] : List FrameVector)⟩ identityFV = _
    unfold SlidingBuffer.advance
    rw [if_neg (by simp)]
    rfl
  have hs := seedLoop_spec (R - 1) R (⟨2 * R + 1, [identityFV]⟩ : SlidingBuffer FrameVector)
    (by simp only [List.length_cons, List.length_nil]; omega)
    (by simp only []; omega)
    (by simp only [List.length_cons, List.length_nil]; omega)
  unfold prepare_buffers reset_buffers
  refine ⟨rfl, rfl, rfl, ?_, ?_⟩
  · show (seedLoop (R - 1) R
        ((s0.trajectory.resize (2 * R + 1)).clear.advance identityFV)).capacity = 2 * R + 1
    rw [hstart, hs.1]
  · show (seedLoop (R - 1) R
        ((s0.trajectory.resize (2 * R + 1)).clear.advance identityFV)).elems.length = R - 1
    rw [hstart, hs.2]

theorem process_fst (track : F → Transform) (applyWarp : F → Transform → F)
    (frameSize : F → ℚ × ℚ) (s : State F) (f : F) :
    (process track applyWarp frameSize s f).1 = advanceState track s f := by
  unfold process
  split
  · split <;> rfl
  · rfl

theorem advanceState_facts (track : F → Transform) (s : State F) (f : F)
    (hq : s.frameQueue.elems.length ≤ s.frameQueue.capacity)
    (hqc : 0 < s.frameQueue.capacity)
    (ht : s.trajectory.elems.length ≤ s.trajectory.capacity)
    (htc : 0 < s.trajectory.capacity) :
    (advanceState track s f).frameQueue.capacity = s.frameQueue.capacity ∧
    (advanceState track s f).trajectory.capacity = s.trajectory.capacity ∧
    (advanceState track s f).frameQueue.elems.length
      = min s.frameQueue.capacity (s.frameQueue.elems.length + 1) ∧
    (advanceState track s f).trajectory.elems.length
      = min s.trajectory.capacity (s.trajectory.elems.length + 1) := by
  refine ⟨SlidingBuffer.advance_capacity _ _, SlidingBuffer.advance_capacity _ _, ?_, ?_⟩
  · exact SlidingBuffer.advance_length _ _ hq hqc
  · exact SlidingBuffer.advance_length _ _ ht htc

/-- Lengths and capacities after a run of `process` calls: each call pushes
exactly one element onto each buffer, saturating at the capacities. -/
theorem processRun_lengths (track : F → Transform) (applyWarp : F → Transform → F)
    (frameSize : F → ℚ × ℚ) :
    ∀ (frames : List F) (s : State F),
      s.frameQueue.elems.length ≤ s.frameQueue.capacity → 0 < s.frameQueue.capacity →
      s.trajectory.elems.length ≤ s.trajectory.capacity → 0 < s.trajectory.capacity →
      (processRun track applyWarp frameSize s frames).frameQueue.capacity
        = s.frameQueue.capacity ∧
      (processRun track applyWarp frameSize s frames).trajectory.capacity
        = s.trajectory.capacity ∧
      (processRun track applyWarp frameSize s frames).frameQueue.elems.length
        = min s.frameQueue.capacity (s.frameQueue.elems.length + frames.length) ∧
      (processRun track applyWarp frameSize s frames).trajectory.elems.length
        = min s.trajectory.capacity (s.trajectory.elems.length + frames.length) := by
  intro frames
  induction frames with
  | nil =>
      intro s h1 h2 h3 h4
      refine ⟨rfl, rfl, ?_, ?_⟩
      · show s.frameQueue.elems.length = _
        simp only [List.length_nil]
        omega
      · show s.trajectory.elems.length = _
        simp only [List.length_nil]
        omega
  | cons fr frames ih =>
      intro s h1 h2 h3 h4
      have hstep : processRun track applyWarp frameSize s (fr :: frames)
          = processRun track applyWarp frameSize (advanceState track s fr) frames := by
        unfold processRun
        rw [List.foldl_cons, process_fst]
      rw [hstep]
      have hadv := advanceState_facts track s fr h1 h2 h3 h4
      have hrec := ih (advanceState track s fr)
        (by omega) (by omega) (by omega) (by omega)
      refine ⟨?_, ?_, ?_, ?_⟩
      · rw [hrec.1, hadv.1]
      · rw [hrec.2.1, hadv.2.1]
      · rw [hrec.2.2.1, hadv.1, hadv.2.2.1]
        simp only [List.length_cons]
        omega
      · rw [hrec.2.2.2, hadv.2.1, hadv.2.2.2]
        simp only [List.length_cons]
        omega

end VSFilter

/-- C4: for an even smoothing radius within the configured bounds,
`prepare_buffers(R)` sets the queue window to `R + 2`, the trajectory window
to `2R + 1`, and seeds the trajectory with `R - 1` elements; for every
subsequent run of at most `R + 2` frame advances, `stabilisation_ready`
holds exactly when all `R + 2` advances have happened — the first true on
the `(R + 2)`-th advance — and both ring buffers become full on exactly
that advance. -/
theorem VSFilter.stabilisation_ready_after_full_buffers (F : Type)
    (track : F → Transform) (applyWarp : F → Transform → F)
    (frameSize : F → ℚ × ℚ) (s0 : VSFilter.State F) (R : Nat)
    (hR2 : 2 ≤ R) (hR30 : R ≤ 30) (hEven : Even R) :
    (VSFilter.prepare_buffers s0 R).frameQueue.window_size = R + 2 ∧
    (VSFilter.prepare_buffers s0 R).trajectory.window_size = 2 * R + 1 ∧
    (VSFilter.prepare_buffers s0 R).trajectory.elements = R - 1 ∧
    (VSFilter.prepare_buffers s0 R).frameQueue.elements = 0 ∧
    ∀ frames : List F, frames.length ≤ R + 2 →
      ((VSFilter.stabilisation_ready (VSFilter.processRun track applyWarp frameSize
          (VSFilter.prepare_buffers s0 R) frames) = true) ↔ frames.length = R + 2) ∧
      (((VSFilter.processRun track applyWarp frameSize
          (VSFilter.prepare_buffers s0 R) frames).frameQueue.full = true)
        ↔ frames.length = R + 2) ∧
      (((VSFilter.processRun track applyWarp frameSize
          (VSFilter.prepare_buffers s0 R) frames).trajectory.full = true)
        ↔ frames.length = R + 2) := by
  obtain ⟨hrad, hqcap, hqlen, htcap, htlen⟩ :=
    VSFilter.prepare_buffers_spec s0 R hR2
  refine ⟨hqcap, htcap, htlen, hqlen, ?_⟩
  intro frames hfl
  have hrun := VSFilter.processRun_lengths track applyWarp frameSize frames
    (VSFilter.prepare_buffers s0 R) (by omega) (by omega) (by omega) (by omega)
  obtain ⟨hc1, hc2, hl1, hl2⟩ := hrun
  have hqfull : ((VSFilter.processRun track applyWarp frameSize
      (VSFilter.prepare_buffers s0 R) frames).frameQueue.full = true)
      ↔ frames.length = R + 2 := by
    rw [SlidingBuffer.full_iff, hc1, hl1, hqcap, hqlen]
    omega
  have htfull : ((VSFilter.processRun track applyWarp frameSize
      (VSFilter.prepare_buffers s0 R) frames).trajectory.full = true)
      ↔ frames.length = R + 2 := by
    rw [SlidingBuffer.full_iff, hc2, hl2, htcap, htlen]
    omega
  refine ⟨?_, hqfull, htfull⟩
  unfold VSFilter.stabilisation_ready
  rw [Bool.and_eq_true]
  constructor
  · intro h
    exact hqfull.1 h.2
  · intro h
    exact ⟨htfull.2 h, hqfull.2 h⟩

/-- Witness for C4 at radius 2 with a trivial tracker and warp: the prepared
buffers have windows 4 and 5, one seeded trajectory element, and readiness
first holds exactly after 4 processed frames. -/
theorem VSFilter.stabilisation_ready_after_full_buffers_witness :
    (VSFilter.prepare_buffers
        (⟨0, ⟨0, []⟩, ⟨0, []⟩, ⟨0, []⟩, ⟨0, 0, 0, 0⟩⟩ : VSFilter.State Nat)
        2).frameQueue.window_size = 2 + 2 ∧
    ∀ frames : List Nat, frames.length ≤ 2 + 2 →
      ((VSFilter.stabilisation_ready (VSFilter.processRun
          (fun _ => Transform.Identity) (fun f _ => f) (fun _ => (1, 1))
          (VSFilter.prepare_buffers
            (⟨0, ⟨0, []⟩, ⟨0, []⟩, ⟨0, []⟩, ⟨0, 0, 0, 0⟩⟩ : VSFilter.State Nat) 2)
          frames) = true) ↔ frames.length = 2 + 2) := by
  have h := VSFilter.stabilisation_ready_after_full_buffers Nat
    (fun _ => Transform.Identity) (fun f _ => f) (fun _ => (1, 1))
    (⟨0, ⟨0, []⟩, ⟨0, []⟩, ⟨0, []⟩, ⟨0, 0, 0, 0⟩⟩ : VSFilter.State Nat) 2
    (by omega) (by omega) ⟨1, rfl⟩
  exact ⟨h.1, fun frames hfl => (h.2.2.2.2 frames hfl).1⟩

/-- C7: after `prepare_buffers(R)` and any run of prior frames, the next
`process` call returns the no-output sentinel exactly while the frame queue
and trajectory window are not yet simultaneously full (fewer than `R + 2`
frames processed in total), and from the `(R + 2)`-th frame onward it
returns the oldest queued frame with the corrective warp applied. -/
theorem VSFilter.process_delayed_output (F : Type)
    (track : F → Transform) (applyWarp : F → Transform → F) (frameSize : F → ℚ × ℚ)
    (s0 : VSFilter.State F) (R : Nat) (hR2 : 2 ≤ R) (prior : List F) (f : F) :
    (prior.length + 1 < R + 2 →
      (VSFilter.process track applyWarp frameSize
        (VSFilter.processRun track applyWarp frameSize
          (VSFilter.prepare_buffers s0 R) prior) f).2 = none) ∧
    (R + 2 ≤ prior.length + 1 →
      ∃ of : F,
        (VSFilter.process track applyWarp frameSize
          (VSFilter.processRun track applyWarp frameSize
            (VSFilter.prepare_buffers s0 R) prior) f).1.frameQueue.oldest = some of ∧
        (VSFilter.process track applyWarp frameSize
          (VSFilter.processRun track applyWarp frameSize
            (VSFilter.prepare_buffers s0 R) prior) f).2
          = some (applyWarp of (VSFilter.correctiveWarp
              (VSFilter.process track applyWarp frameSize
                (VSFilter.processRun track applyWarp frameSize
                  (VSFilter.prepare_buffers s0 R) prior) f).1 of frameSize))) := by
  obtain ⟨hrad, hqcap, hqlen, htcap, htlen⟩ := VSFilter.prepare_buffers_spec s0 R hR2
  obtain ⟨hc1, hc2, hl1, hl2⟩ := VSFilter.processRun_lengths track applyWarp frameSize
    prior (VSFilter.prepare_buffers s0 R) (by omega) (by omega) (by omega) (by omega)
  have hadv := VSFilter.advanceState_facts track
    (VSFilter.processRun track applyWarp frameSize (VSFilter.prepare_buffers s0 R) prior)
    f (by omega) (by omega) (by omega) (by omega)
  obtain ⟨ha1, ha2, ha3, ha4⟩ := hadv
  have hready : VSFilter.stabilisation_ready (VSFilter.advanceState track
      (VSFilter.processRun track applyWarp frameSize
        (VSFilter.prepare_buffers s0 R) prior) f) = true
      ↔ R + 2 ≤ prior.length + 1 := by
    unfold VSFilter.stabilisation_ready
    rw [Bool.and_eq_true, SlidingBuffer.full_iff, SlidingBuffer.full_iff,
      ha1, ha2, ha3, ha4]
    omega
  constructor
  · intro hlt
    have hnr : VSFilter.stabilisation_ready (VSFilter.advanceState track
        (VSFilter.processRun track applyWarp frameSize
          (VSFilter.prepare_buffers s0 R) prior) f) = false := by
      rw [Bool.eq_false_iff]
      intro hcontra
      have := hready.1 hcontra
      omega
    unfold VSFilter.process
    rw [hnr]
    simp
  · intro hge
    have hrdy := hready.2 hge
    have hqfull : (VSFilter.advanceState track
        (VSFilter.processRun track applyWarp frameSize
          (VSFilter.prepare_buffers s0 R) prior) f).frameQueue.elems.length = R + 2 := by
      omega
    have hol : ∃ of : F, (VSFilter.advanceState track
        (VSFilter.processRun track applyWarp frameSize
          (VSFilter.prepare_buffers s0 R) prior) f).frameQueue.oldest = some of := by
      unfold SlidingBuffer.oldest
      cases hE : (VSFilter.advanceState track
          (VSFilter.processRun track applyWarp frameSize
            (VSFilter.prepare_buffers s0 R) prior) f).frameQueue.elems with
      | nil =>
          exfalso
          rw [hE] at hqfull
          have hz : ([] : List F).length = 0 := rfl
          omega
      | cons a l => exact ⟨a, rfl⟩
    obtain ⟨of, hof⟩ := hol
    refine ⟨of, ?_, ?_⟩
    · rw [VSFilter.process_fst]
      exact hof
    · rw [VSFilter.process_fst]
      unfold VSFilter.process
      rw [hrdy]
      simp only [if_true, hof]

/-- Witness for C7 at radius 2 with a trivial tracker and warp: with one
prior frame the next call yields no output; with three prior frames the
next call is the fourth and yields the warped oldest queued frame. -/
theorem VSFilter.process_delayed_output_witness :
    (VSFilter.process (fun _ => Transform.Identity) (fun f _ => f) (fun _ => (1, 1))
      (VSFilter.processRun (fun _ => Transform.Identity) (fun f _ => f) (fun _ => (1, 1))
        (VSFilter.prepare_buffers
          (⟨0, ⟨0, []⟩, ⟨0, []⟩, ⟨0, []⟩, ⟨0, 0, 0, 0⟩⟩ : VSFilter.State Nat) 2)
        [10]) 11).2 = none ∧
    (∃ of : Nat,
      (VSFilter.process (fun _ => Transform.Identity) (fun f _ => f) (fun _ => (1, 1))
        (VSFilter.processRun (fun _ => Transform.Identity) (fun f _ => f) (fun _ => (1, 1))
          (VSFilter.prepare_buffers
            (⟨0, ⟨0, []⟩, ⟨0, []⟩, ⟨0, []⟩, ⟨0, 0, 0, 0⟩⟩ : VSFilter.State Nat) 2)
          [10, 11, 12]) 13).1.frameQueue.oldest = some of ∧
      (VSFilter.process (fun _ => Transform.Identity) (fun f _ => f) (fun _ => (1, 1))
        (VSFilter.processRun (fun _ => Transform.Identity) (fun f _ => f) (fun _ => (1, 1))
          (VSFilter.prepare_buffers
            (⟨0, ⟨0, []⟩, ⟨0, []⟩, ⟨0, []⟩, ⟨0, 0, 0, 0⟩⟩ : VSFilter.State Nat) 2)
          [10, 11, 12]) 13).2
        = some ((fun f _ => f) of (VSFilter.correctiveWarp
            (VSFilter.process (fun _ => Transform.Identity) (fun f _ => f) (fun _ => (1, 1))
              (VSFilter.processRun (fun _ => Transform.Identity) (fun f _ => f)
                (fun _ => (1, 1))
                (VSFilter.prepare_buffers
                  (⟨0, ⟨0, []⟩, ⟨0, []⟩, ⟨0, []⟩, ⟨0, 0, 0, 0⟩⟩ : VSFilter.State Nat) 2)
                [10, 11, 12]) 13).1 of (fun _ => (1, 1))))) := by
  constructor
  · exact (VSFilter.process_delayed_output Nat
      (fun _ => Transform.Identity) (fun f _ => f) (fun _ => (1, 1))
      (⟨0, ⟨0, []⟩, ⟨0, []⟩, ⟨0, []⟩, ⟨0, 0, 0, 0⟩⟩ : VSFilter.State Nat) 2
      (by omega) [10] 11).1 (by decide)
  · exact (VSFilter.process_delayed_output Nat
      (fun _ => Transform.Identity) (fun f _ => f) (fun _ => (1, 1))
      (⟨0, ⟨0, []⟩, ⟨0, []⟩, ⟨0, []⟩, ⟨0, 0, 0, 0⟩⟩ : VSFilter.State Nat) 2
      (by omega) [10, 11, 12] 13).2 (by decide)

/-- Witness for C5: the pure translation by (200, 0) of a 100x100 frame
never encloses the crop square at (-1, -1) at any checked fraction, so the
search returns identity; the identity transform already encloses the
in-frame crop (10, 10, 50, 50) and is returned unreduced. -/
theorem VSFilter.enclose_crop_terminates_at_identity_witness :
    VSFilter.enclose_crop 100 100 ⟨-1, -1, 1, 1⟩ ⟨1, 0, 0, 1, 200, 0⟩
        = Transform.Identity ∧
    VSFilter.enclose_crop 100 100 ⟨10, 10, 50, 50⟩ Transform.Identity
        = Transform.Identity := by
  constructor
  · refine ((VSFilter.enclose_crop_terminates_at_identity 100 100
      ⟨-1, -1, 1, 1⟩ ⟨1, 0, 0, 1, 200, 0⟩).1 ?_).1
    intro j hj henc
    obtain ⟨h1, -, -, -⟩ := henc
    have hj99 : (j : ℚ) ≤ 99 := by exact_mod_cast Nat.lt_succ_iff.1 hj
    simp only [lerpT, Transform.scale, Transform.add_def, Transform.sub_def,
      Transform.apply, Transform.Identity] at h1
    norm_num at h1
    linarith
  · exact (VSFilter.enclose_crop_terminates_at_identity 100 100
      ⟨10, 10, 50, 50⟩ Transform.Identity).2
      (by norm_num [frameBoundsEnclose, Transform.apply, Transform.Identity])

end LVK
